import Mathlib

/-!
Formal model of the log-structured key/value store in `src/kv.rs`
(the `KvStore` engine of this repository), together with proofs of the
behavioural properties stated in the repository's specification.

Modelling choices, all taken from the source:
* A log file is represented by the sequence of records its bytes decode
  to; byte offsets are recovered from `encLen`, the byte size of the
  serde_json encoding of a record.  A read of a byte range succeeds
  exactly when the range coincides with the extent of one record
  (`serde_json::from_reader` on a `take` rejects both truncated and
  trailing bytes).
* Reader handles carry no data beyond their generation number, so the
  `readers` hash map is modelled by its key set; reads go through the
  directory map, which is sound because the store keeps the reader set
  equal to the set of on-disk generations (proved below).
* The `expect` panics in `get` are modelled by a distinguished error
  value `panicMissingReader`.
* `BTreeMap` is modelled by an association list kept sorted by key.
-/

/-- One persisted record, mirroring `enum Command` in kv.rs. -/
inductive Command where
  | set (key value : String)
  | remove (key : String)
deriving DecidableEq, Repr

/-- Byte length of the serde_json encoding of a record:
`\x7b"Set":\x7b"key":"K","value":"V"\x7d\x7d` is 29 bytes plus key and value,
`\x7b"Remove":\x7b"key":"K"\x7d\x7d` is 21 bytes plus the key (characters that
would need JSON escaping are not modelled). -/
def encLen : Command → Nat
  | .set k v => 29 + k.length + v.length
  | .remove k => 21 + k.length

/-- `CommandPos` from kv.rs: generation, start offset and length of a record. -/
structure CommandPos where
  gen : Nat
  pos : Nat
  len : Nat
deriving DecidableEq, Repr

/-- A log file, as the sequence of records its bytes decode to. -/
abbrev LogFile := List Command

/-- Total byte length of a log file. -/
def byteLen (f : LogFile) : Nat := (f.map encLen).sum

/-- Decoding the byte range `[p, p+l)` of a file: succeeds exactly when the
range is the extent of one record (`from_reader` on a `take` fails on both
truncated input and trailing bytes). -/
def readAt : LogFile → Nat → Nat → Option Command
  | [], _, _ => none
  | c :: rest, p, l =>
    if p = 0 then (if l = encLen c then some c else none)
    else if p < encLen c then none
    else readAt rest (p - encLen c) l

/-- The store directory: association list from generation number to the
content of `\x7bgen\x7d.log`. -/
abbrev Fs := List (Nat × LogFile)

/-- Content of generation `g`'s file (empty if the file does not exist). -/
def fsGetD : Fs → Nat → LogFile
  | [], _ => []
  | (g', f) :: rest, g => if g' = g then f else fsGetD rest g

/-- Write generation `g`'s file (create it if absent). -/
def fsSet : Fs → Nat → LogFile → Fs
  | [], g, f => [(g, f)]
  | (g', f') :: rest, g, f =>
    if g' = g then (g, f) :: rest else (g', f') :: fsSet rest g f

/-- Delete generation `g`'s file. -/
def fsErase : Fs → Nat → Fs
  | [], _ => []
  | (g', f) :: rest, g =>
    if g' = g then fsErase rest g else (g', f) :: fsErase rest g

/-- The generation numbers present in the directory. -/
def fsKeys (fs : Fs) : List Nat := fs.map (fun p => p.1)

/-- The in-memory index: `BTreeMap<String, CommandPos>` as an association
list sorted by key. -/
abbrev Index := List (String × CommandPos)

def idxLookup : Index → String → Option CommandPos
  | [], _ => none
  | (k', cp) :: rest, k => if k = k' then some cp else idxLookup rest k

/-- `BTreeMap::insert`, keeping the list sorted by key. -/
def idxInsert : Index → String → CommandPos → Index
  | [], k, cp => [(k, cp)]
  | (k', cp') :: rest, k, cp =>
    if k = k' then (k, cp) :: rest
    else if k < k' then (k, cp) :: (k', cp') :: rest
    else (k', cp') :: idxInsert rest k cp

/-- `BTreeMap::remove`. -/
def idxErase : Index → String → Index
  | [], _ => []
  | (k', cp) :: rest, k =>
    if k' = k then idxErase rest k else (k', cp) :: idxErase rest k

/-- Strictly-ascending key order, the `BTreeMap` representation invariant. -/
def idxSorted (idx : Index) : Prop := idx.Pairwise (fun a b => a.1 < b.1)

/-- The reader set (`readers: HashMap<u64, BufReaderWithPos<File>>`),
modelled by its key set. -/
def readersInsert (rs : List Nat) (g : Nat) : List Nat :=
  if g ∈ rs then rs else rs ++ [g]

/-- Error kinds reaching the caller (`KvsError`), plus a marker for the
`expect` panic on a missing reader. -/
inductive KvsError where
  | keyNotFound
  | unexpectedCommandType
  | decodeError
  | panicMissingReader
deriving DecidableEq, Repr

/-- `const COMPACTION_THREDHOLD: u64 = 1024 * 1024;` (source spelling). -/
def COMPACTION_THREDHOLD : Nat := 1024 * 1024

/-- The store state.  `path` is represented by `files`, the directory
content itself; the writer position is the byte length of the active file
(the writer opens with `seek(End)` and advances by every write). -/
structure KvStore where
  currentGen : Nat
  readers : List Nat
  index : Index
  canbeCompacted : Nat
  files : Fs
deriving DecidableEq, Repr

/-- The recovery scan of one generation file (`build_index_from_log`):
walks the records, tracking the running byte offset, updating the index and
counting compactable (dead) bytes. -/
def buildGo (gen : Nat) : List Command → Nat → Index → Nat → Index × Nat
  | [], _, idx, cb => (idx, cb)
  | c :: rest, pos, idx, cb =>
    let endPos := pos + encLen c
    match c with
    | .set k _ =>
      let cb' := cb + (match idxLookup idx k with | some old => old.len | none => 0)
      buildGo gen rest endPos (idxInsert idx k ⟨gen, pos, endPos - pos⟩) cb'
    | .remove k =>
      let cb' := cb + (match idxLookup idx k with | some old => old.len | none => 0)
        + (endPos - pos)
      buildGo gen rest endPos (idxErase idx k) cb'

/-- `build_index_from_log`: scan a whole generation file from offset 0,
returning the updated index and the compactable bytes found by the scan. -/
def buildIndexFromLog (gen : Nat) (file : LogFile) (idx : Index) : Index × Nat :=
  buildGo gen file 0 idx 0

/-- `sorted_gen_list`: the generation numbers in the directory, ascending. -/
def genListKeys (fs : Fs) : List Nat := List.insertionSort (· ≤ ·) (fsKeys fs)

/-- Replaying every generation file in ascending order: the index and the
total compactable bytes the scans report. -/
def replayAll (fs : Fs) : Index × Nat :=
  (genListKeys fs).foldl
    (fun acc g =>
      let r := buildIndexFromLog g (fsGetD fs g) acc.1
      (r.1, acc.2 + r.2))
    ([], 0)

/-- The index recovered from the directory. -/
def rebuildIndex (fs : Fs) : Index := (replayAll fs).1

/-- The compactable bytes the recovery scans report (the value the source
computes in `build_index_from_log` and then drops in `open`). -/
def scanBytes (fs : Fs) : Nat := (replayAll fs).2

/-- `KvStore::open`.  Scans every `\x7bgen\x7d.log` in ascending order to
build the index; the per-generation compactable-byte counts returned by
`build_index_from_log` are discarded (`open` initialises
`canbe_compacted = 0` and never adds to it).  The active generation is
`max + 1` (`1` on an empty directory) and `create_active_log_file`
registers both its writer and a reader. -/
def openStore (fs0 : Fs) : KvStore :=
  let genList := genListKeys fs0
  let currentGen := genList.getLast?.getD 0 + 1
  { currentGen := currentGen
    readers := readersInsert genList currentGen
    index := rebuildIndex fs0
    canbeCompacted := 0
    files := fsSet fs0 currentGen (fsGetD fs0 currentGen) }

/-- `KvStore::get`: index lookup, then seek-and-decode of the pinned byte
range through the generation's reader (`expect` panic when the reader is
missing is the `panicMissingReader` error value). -/
def KvStore.get (s : KvStore) (key : String) : Except KvsError (Option String) :=
  match idxLookup s.index key with
  | none => Except.ok none
  | some cp =>
    if cp.gen ∈ s.readers then
      match readAt (fsGetD s.files cp.gen) cp.pos cp.len with
      | some (Command.set _ value) => Except.ok (some value)
      | some _ => Except.error KvsError.unexpectedCommandType
      | none => Except.error KvsError.decodeError
    else
      Except.error KvsError.panicMissingReader

/-- The copy loop of `KvStore::compact`: for every index entry (ascending
key order, `BTreeMap::values_mut`), copy the `len` bytes at its position to
the compaction file and repoint the entry at the compaction generation.
The amount written is what `io::copy` actually transfers: `cp.len` when the
range is the extent of one record, `0` in the (unreachable, see `WF`)
misaligned case. -/
def compactCopy (fs : Fs) (cgen : Nat) : Index → Nat → LogFile × Index
  | [], _ => ([], [])
  | (k, cp) :: rest, newPos =>
    match readAt (fsGetD fs cp.gen) cp.pos cp.len with
    | some c =>
      let r := compactCopy fs cgen rest (newPos + cp.len)
      (c :: r.1, (k, ⟨cgen, newPos, cp.len⟩) :: r.2)
    | none =>
      let r := compactCopy fs cgen rest newPos
      (r.1, (k, ⟨cgen, newPos, 0⟩) :: r.2)

/-- `KvStore::compact`: new active generation `current + 2`, compaction
output generation `current + 1`; copy every live record, then drop the
readers of all generations below the compaction generation and delete
their files; reset the compactable-byte counter. -/
def KvStore.compact (s : KvStore) : KvStore :=
  let compactionGen := s.currentGen + 1
  let newGen := s.currentGen + 2
  let fsA := fsSet s.files newGen (fsGetD s.files newGen)
  let readersA := readersInsert s.readers newGen
  let fsB := fsSet fsA compactionGen (fsGetD fsA compactionGen)
  let readersB := readersInsert readersA compactionGen
  let r := compactCopy fsB compactionGen s.index 0
  let fsC := fsSet fsB compactionGen (fsGetD fsB compactionGen ++ r.1)
  { currentGen := newGen
    readers := readersB.filter (fun g => decide (¬ g < compactionGen))
    index := r.2
    canbeCompacted := 0
    files := (readersB.filter (fun g => decide (g < compactionGen))).foldl fsErase fsC }

/-- `KvStore::set` up to (not including) the compaction check: append the
`Set` record at the writer position, install the new index entry, and add a
superseded entry's length to the counter. -/
def KvStore.setPre (s : KvStore) (key value : String) : KvStore :=
  let cmd := Command.set key value
  let pos := byteLen (fsGetD s.files s.currentGen)
  let endPos := pos + encLen cmd
  { s with
    files := fsSet s.files s.currentGen (fsGetD s.files s.currentGen ++ [cmd])
    index := idxInsert s.index key ⟨s.currentGen, pos, endPos - pos⟩
    canbeCompacted := s.canbeCompacted +
      (match idxLookup s.index key with | some old => old.len | none => 0) }

/-- `KvStore::set`: the append and index update, then compaction when the
counter exceeds the threshold. -/
def KvStore.set (s : KvStore) (key value : String) : KvStore :=
  let s' := s.setPre key value
  if s'.canbeCompacted > COMPACTION_THREDHOLD then s'.compact else s'

/-- `KvStore::remove`: on a present key, append the `Remove` record, drop
the index entry and add the dropped entry's length (only — not the `Remove`
record's own length) to the counter; on an absent key fail with
`KeyNotFound`, changing nothing. -/
def KvStore.remove (s : KvStore) (key : String) : Except KvsError Unit × KvStore :=
  match idxLookup s.index key with
  | some old =>
    (Except.ok (),
      { s with
        files := fsSet s.files s.currentGen
          (fsGetD s.files s.currentGen ++ [Command.remove key])
        index := idxErase s.index key
        canbeCompacted := s.canbeCompacted + old.len })
  | none => (Except.error KvsError.keyNotFound, s)

/-- One client operation. -/
inductive Op where
  | set (key value : String)
  | get (key : String)
  | remove (key : String)
deriving DecidableEq, Repr

/-- Run one operation for its state effect (`get` only moves buffered
reader offsets, which the model does not track; a failed `remove` leaves
the state unchanged). -/
def applyOp (s : KvStore) : Op → KvStore
  | .set k v => s.set k v
  | .get _ => s
  | .remove k => (s.remove k).2

def runOps (s : KvStore) (ops : List Op) : KvStore := ops.foldl applyOp s

/-- The reference map of the specification: a plain finite map from keys
to values. -/
abbrev RefMap := List (String × String)

def refLookup : RefMap → String → Option String
  | [], _ => none
  | (k', v) :: rest, k => if k = k' then some v else refLookup rest k

def refErase : RefMap → String → RefMap
  | [], _ => []
  | (k', v) :: rest, k =>
    if k' = k then refErase rest k else (k', v) :: refErase rest k

def refInsert (m : RefMap) (k v : String) : RefMap := (k, v) :: refErase m k

/-- Reference semantics of one operation: `set` inserts, `remove` deletes
(removing an absent key is an error that leaves the map unchanged, and
`refErase` is then a no-op), `get` reads only. -/
def refStep (m : RefMap) : Op → RefMap
  | .set k v => refInsert m k v
  | .get _ => m
  | .remove k => refErase m k

def refRun (m : RefMap) (ops : List Op) : RefMap := ops.foldl refStep m

/-- The value the store associates to `key`: the decoded value of the
index-pinned record, if any. -/
def valOf (s : KvStore) (key : String) : Option String :=
  match idxLookup s.index key with
  | none => none
  | some cp =>
    match readAt (fsGetD s.files cp.gen) cp.pos cp.len with
    | some (Command.set _ v) => some v
    | _ => none

/-- `o` decodes to a `Set` record for key `k`. -/
def isSetFor (k : String) : Option Command → Bool
  | some (Command.set k' _) => k' == k
  | _ => false

/-- Entry `e` pins a byte range that decodes to a `Set` record for its key. -/
def entryDecodes (fs : Fs) (e : String × CommandPos) : Prop :=
  isSetFor e.1 (readAt (fsGetD fs e.2.gen) e.2.pos e.2.len) = true

/-- The store's representation invariant, established by `open` and
preserved by every operation:
1. recovery coherence: replaying the directory yields exactly the index;
2. every index entry decodes to a `Set` record for its key;
3. every index entry's generation has an open reader;
4. reader generations are bounded by the active generation;
5. the active generation has a reader;
6./7. the reader set equals the set of on-disk generations;
8./9. directory keys and reader list are duplicate-free;
10. the index is sorted by key;
11. the active generation is the largest on-disk generation. -/
def WF (s : KvStore) : Prop :=
  rebuildIndex s.files = s.index
  ∧ (∀ e ∈ s.index, entryDecodes s.files e)
  ∧ (∀ e ∈ s.index, e.2.gen ∈ s.readers)
  ∧ (∀ g ∈ s.readers, g ≤ s.currentGen)
  ∧ s.currentGen ∈ s.readers
  ∧ (∀ g ∈ s.readers, g ∈ fsKeys s.files)
  ∧ (∀ g ∈ fsKeys s.files, g ∈ s.readers)
  ∧ (fsKeys s.files).Nodup
  ∧ s.readers.Nodup
  ∧ idxSorted s.index
  ∧ (genListKeys s.files).getLast? = some s.currentGen

instance (idx : Index) : Decidable (idxSorted idx) := by
  unfold idxSorted; infer_instance

instance (fs : Fs) (e : String × CommandPos) : Decidable (entryDecodes fs e) := by
  unfold entryDecodes; infer_instance

instance (s : KvStore) : Decidable (WF s) := by
  unfold WF; infer_instance

/-- Proof-side view of the recovery fold: the index component only. -/
def replayIdx (fs : Fs) (gs : List Nat) (idx : Index) : Index :=
  gs.foldl (fun i g => (buildIndexFromLog g (fsGetD fs g) i).1) idx

/-- The record a live index entry decodes to. -/
def decodeE (fs : Fs) (e : String × CommandPos) : Command :=
  (readAt (fsGetD fs e.2.gen) e.2.pos e.2.len).getD (Command.remove e.1)

/-- Repointing index entries at the compaction generation with consecutive
offsets: the shape `compactCopy` gives the rewritten index. -/
def reindex (cgen : Nat) : Nat → Index → Index
  | _, [] => []
  | p, (k, cp) :: rest => (k, ⟨cgen, p, cp.len⟩) :: reindex cgen (p + cp.len) rest

/-! ### Basic lemmas about the encoding and `readAt` -/

lemma encLen_pos (c : Command) : 0 < encLen c := by
  cases c <;> simp [encLen]

lemma byteLen_nil : byteLen [] = 0 := rfl

lemma byteLen_cons (c : Command) (f : LogFile) :
    byteLen (c :: f) = encLen c + byteLen f := by
  simp [byteLen]

lemma byteLen_append (f g : LogFile) :
    byteLen (f ++ g) = byteLen f + byteLen g := by
  simp [byteLen]

lemma readAt_append_some {f : LogFile} {p l : Nat} {c : Command} (g : LogFile)
    (h : readAt f p l = some c) : readAt (f ++ g) p l = some c := by
  induction f generalizing p with
  | nil => simp [readAt] at h
  | cons c' rest ih =>
    by_cases hp : p = 0
    · subst hp
      simp only [readAt, if_pos rfl] at h ⊢
      exact h
    · by_cases hlt : p < encLen c'
      · simp [readAt, hp, hlt] at h
      · simp only [List.cons_append, readAt, if_neg hp, if_neg hlt] at h ⊢
        exact ih h

lemma readAt_concat (f1 : LogFile) (c : Command) (f2 : LogFile) (l : Nat) :
    readAt (f1 ++ c :: f2) (byteLen f1) l =
      if l = encLen c then some c else none := by
  induction f1 with
  | nil => simp [readAt, byteLen]
  | cons c' rest ih =>
    have h1 : ¬ (encLen c' + byteLen rest = 0) := by
      have := encLen_pos c'; omega
    have h2 : ¬ (encLen c' + byteLen rest < encLen c') := by omega
    simp only [List.cons_append, readAt, byteLen_cons, if_neg h1, if_neg h2,
      Nat.add_sub_cancel_left]
    exact ih

lemma readAt_eq_some_encLen {f : LogFile} {p l : Nat} {c : Command}
    (h : readAt f p l = some c) : l = encLen c := by
  induction f generalizing p with
  | nil => simp [readAt] at h
  | cons c' rest ih =>
    by_cases hp : p = 0
    · subst hp
      simp only [readAt, if_pos rfl] at h
      by_cases hl : l = encLen c'
      · rw [if_pos hl] at h
        cases h
        exact hl
      · rw [if_neg hl] at h
        cases h
    · by_cases hlt : p < encLen c'
      · simp [readAt, hp, hlt] at h
      · simp only [readAt, if_neg hp, if_neg hlt] at h
        exact ih h

lemma readAt_some_le {f : LogFile} {p l : Nat} {c : Command}
    (h : readAt f p l = some c) : p + l ≤ byteLen f := by
  induction f generalizing p with
  | nil => simp [readAt] at h
  | cons c' rest ih =>
    by_cases hp : p = 0
    · subst hp
      simp only [readAt, if_pos rfl] at h
      by_cases hl : l = encLen c'
      · rw [byteLen_cons, hl]; omega
      · rw [if_neg hl] at h
        cases h
    · by_cases hlt : p < encLen c'
      · simp [readAt, hp, hlt] at h
      · simp only [readAt, if_neg hp, if_neg hlt] at h
        have := ih h
        rw [byteLen_cons]
        omega

/-! ### Lemmas about the directory map -/

lemma fsKeys_cons (g' : Nat) (f' : LogFile) (rest : Fs) :
    fsKeys ((g', f') :: rest) = g' :: fsKeys rest := rfl

lemma fsKeys_append (fs1 fs2 : Fs) :
    fsKeys (fs1 ++ fs2) = fsKeys fs1 ++ fsKeys fs2 := by
  simp [fsKeys]

lemma fsGetD_fsSet_self (fs : Fs) (g : Nat) (f : LogFile) :
    fsGetD (fsSet fs g f) g = f := by
  induction fs with
  | nil => simp [fsSet, fsGetD]
  | cons p rest ih =>
    obtain ⟨g', f'⟩ := p
    by_cases h : g' = g
    · subst h; simp [fsSet, fsGetD]
    · simp [fsSet, fsGetD, h, ih]

lemma fsGetD_fsSet_ne (fs : Fs) {g g'' : Nat} (f : LogFile) (h : g'' ≠ g) :
    fsGetD (fsSet fs g f) g'' = fsGetD fs g'' := by
  have h2 : ¬ g = g'' := fun hh => h hh.symm
  induction fs with
  | nil => simp [fsSet, fsGetD, h2]
  | cons p rest ih =>
    obtain ⟨g', f'⟩ := p
    by_cases hg : g' = g
    · subst hg
      simp [fsSet, fsGetD, h2]
    · simp [fsSet, fsGetD, hg, ih]

lemma fsKeys_fsSet_mem (fs : Fs) {g : Nat} (f : LogFile) :
    g ∈ fsKeys fs → fsKeys (fsSet fs g f) = fsKeys fs := by
  induction fs with
  | nil => intro h; simp [fsKeys] at h
  | cons p rest ih =>
    intro h
    obtain ⟨g', f'⟩ := p
    by_cases hg : g' = g
    · subst hg; simp [fsSet, fsKeys]
    · rw [fsKeys_cons, List.mem_cons] at h
      have hmem : g ∈ fsKeys rest := by
        rcases h with h | h
        · exact absurd h.symm hg
        · exact h
      simp only [fsSet, if_neg hg, fsKeys_cons]
      rw [ih hmem]

lemma fsSet_not_mem (fs : Fs) {g : Nat} (f : LogFile) :
    g ∉ fsKeys fs → fsSet fs g f = fs ++ [(g, f)] := by
  induction fs with
  | nil => intro h; simp [fsSet]
  | cons p rest ih =>
    intro h
    obtain ⟨g', f'⟩ := p
    rw [fsKeys_cons, List.mem_cons] at h
    push_neg at h
    have h1 : ¬ g' = g := fun hh => h.1 hh.symm
    simp only [fsSet, if_neg h1, List.cons_append]
    rw [ih h.2]

lemma fsGetD_not_mem (fs : Fs) {g : Nat} :
    g ∉ fsKeys fs → fsGetD fs g = [] := by
  induction fs with
  | nil => intro h; simp [fsGetD]
  | cons p rest ih =>
    intro h
    obtain ⟨g', f'⟩ := p
    rw [fsKeys_cons, List.mem_cons] at h
    push_neg at h
    have h1 : ¬ g' = g := fun hh => h.1 hh.symm
    simp only [fsGetD, if_neg h1]
    exact ih h.2

lemma fsErase_eq_filter (fs : Fs) (g : Nat) :
    fsErase fs g = fs.filter (fun p => decide (p.1 ≠ g)) := by
  induction fs with
  | nil => simp [fsErase]
  | cons p rest ih =>
    obtain ⟨g', f'⟩ := p
    by_cases h : g' = g
    · subst h; simp [fsErase, ih]
    · simp [fsErase, h, ih]

/-! ### Lemmas about the index -/

lemma idxLookup_insert_self (idx : Index) (k : String) (cp : CommandPos) :
    idxLookup (idxInsert idx k cp) k = some cp := by
  induction idx with
  | nil => simp [idxInsert, idxLookup]
  | cons p rest ih =>
    obtain ⟨k', cp'⟩ := p
    by_cases h : k = k'
    · subst h; simp [idxInsert, idxLookup]
    · by_cases hlt : k < k'
      · simp [idxInsert, h, hlt, idxLookup]
      · simp [idxInsert, h, hlt, idxLookup, ih]

lemma idxLookup_insert_ne (idx : Index) {k k'' : String} (cp : CommandPos)
    (h : k'' ≠ k) : idxLookup (idxInsert idx k cp) k'' = idxLookup idx k'' := by
  induction idx with
  | nil => simp [idxInsert, idxLookup, h]
  | cons p rest ih =>
    obtain ⟨k', cp'⟩ := p
    by_cases hk : k = k'
    · subst hk; simp [idxInsert, idxLookup, h]
    · by_cases hlt : k < k'
      · simp [idxInsert, hk, hlt, idxLookup, h]
      · simp [idxInsert, hk, hlt, idxLookup, ih]

lemma idxLookup_erase_self (idx : Index) (k : String) :
    idxLookup (idxErase idx k) k = none := by
  induction idx with
  | nil => rfl
  | cons p rest ih =>
    obtain ⟨k', cp'⟩ := p
    by_cases h : k' = k
    · subst h; simp [idxErase, ih]
    · have h2 : ¬ k = k' := fun hh => h hh.symm
      simp [idxErase, h, idxLookup, h2, ih]

lemma idxLookup_erase_ne (idx : Index) {k k'' : String} (h : k'' ≠ k) :
    idxLookup (idxErase idx k) k'' = idxLookup idx k'' := by
  induction idx with
  | nil => rfl
  | cons p rest ih =>
    obtain ⟨k', cp'⟩ := p
    by_cases hk : k' = k
    · subst hk
      have h2 : ¬ k'' = k' := h
      simp [idxErase, idxLookup, h2, ih]
    · simp [idxErase, hk, idxLookup, ih]

lemma mem_idxInsert {k : String} {cp : CommandPos} {e : String × CommandPos} :
    ∀ {idx : Index}, e ∈ idxInsert idx k cp → e = (k, cp) ∨ e ∈ idx := by
  intro idx
  induction idx with
  | nil => intro h; simpa [idxInsert] using h
  | cons p rest ih =>
    intro h
    obtain ⟨k', cp'⟩ := p
    by_cases hk : k = k'
    · subst hk
      rw [show idxInsert ((k, cp') :: rest) k cp = (k, cp) :: rest from by
        simp [idxInsert], List.mem_cons] at h
      rcases h with h | h
      · exact Or.inl h
      · exact Or.inr (List.mem_cons.mpr (Or.inr h))
    · by_cases hlt : k < k'
      · simp only [idxInsert, if_neg hk, if_pos hlt, List.mem_cons] at h
        rcases h with h | h | h
        · exact Or.inl h
        · exact Or.inr (List.mem_cons.mpr (Or.inl h))
        · exact Or.inr (List.mem_cons.mpr (Or.inr h))
      · simp only [idxInsert, if_neg hk, if_neg hlt, List.mem_cons] at h
        rcases h with h | h
        · exact Or.inr (List.mem_cons.mpr (Or.inl h))
        · rcases ih h with h' | h'
          · exact Or.inl h'
          · exact Or.inr (List.mem_cons.mpr (Or.inr h'))

lemma mem_idxErase {idx : Index} {k : String} {e : String × CommandPos}
    (h : e ∈ idxErase idx k) : e ∈ idx ∧ e.1 ≠ k := by
  induction idx with
  | nil => simp [idxErase] at h
  | cons p rest ih =>
    obtain ⟨k', cp'⟩ := p
    by_cases hk : k' = k
    · subst hk
      simp only [idxErase, if_pos rfl] at h
      have := ih h
      exact ⟨List.mem_cons.mpr (Or.inr this.1), this.2⟩
    · simp only [idxErase, if_neg hk, List.mem_cons] at h
      rcases h with h | h
      · subst h; exact ⟨List.mem_cons.mpr (Or.inl rfl), hk⟩
      · have := ih h
        exact ⟨List.mem_cons.mpr (Or.inr this.1), this.2⟩

lemma idxLookup_eq_some_mem {idx : Index} {k : String} {cp : CommandPos}
    (h : idxLookup idx k = some cp) : (k, cp) ∈ idx := by
  induction idx with
  | nil => simp [idxLookup] at h
  | cons p rest ih =>
    obtain ⟨k', cp'⟩ := p
    by_cases hk : k = k'
    · subst hk
      simp only [idxLookup, if_pos rfl] at h
      cases h
      exact List.mem_cons.mpr (Or.inl rfl)
    · simp only [idxLookup, if_neg hk] at h
      exact List.mem_cons.mpr (Or.inr (ih h))

lemma idxLookup_eq_none_not_mem {idx : Index} {k : String}
    (h : idxLookup idx k = none) : k ∉ idx.map (fun e => e.1) := by
  induction idx with
  | nil => simp
  | cons p rest ih =>
    obtain ⟨k', cp'⟩ := p
    by_cases hk : k = k'
    · subst hk; simp [idxLookup] at h
    · simp only [idxLookup, if_neg hk] at h
      rw [List.map_cons, List.mem_cons]
      push_neg
      exact ⟨hk, ih h⟩

lemma idxLookup_not_mem_eq_none {idx : Index} {k : String} :
    k ∉ idx.map (fun e => e.1) → idxLookup idx k = none := by
  induction idx with
  | nil => intro _; rfl
  | cons p rest ih =>
    intro h
    obtain ⟨k', cp'⟩ := p
    rw [List.map_cons, List.mem_cons] at h
    push_neg at h
    simp [idxLookup, h.1, ih h.2]

lemma idxSorted_insert (k : String) (cp : CommandPos) :
    ∀ idx : Index, idxSorted idx → idxSorted (idxInsert idx k cp) := by
  intro idx
  induction idx with
  | nil => intro _; simp [idxInsert, idxSorted]
  | cons p rest ih =>
    intro h
    obtain ⟨k', cp'⟩ := p
    unfold idxSorted at h ⊢
    rw [List.pairwise_cons] at h
    by_cases hk : k = k'
    · subst hk
      rw [show idxInsert ((k, cp') :: rest) k cp = (k, cp) :: rest from by
        simp [idxInsert]]
      exact List.pairwise_cons.mpr ⟨h.1, h.2⟩
    · by_cases hlt : k < k'
      · rw [show idxInsert ((k', cp') :: rest) k cp = (k, cp) :: (k', cp') :: rest from by
          simp [idxInsert, hk, hlt]]
        refine List.pairwise_cons.mpr ⟨?_, List.pairwise_cons.mpr ⟨h.1, h.2⟩⟩
        intro e he
        rcases List.mem_cons.mp he with he | he
        · subst he; exact hlt
        · exact lt_trans hlt (h.1 e he)
      · have hgt : k' < k := by
          rcases lt_trichotomy k k' with h1 | h1 | h1
          · exact absurd h1 hlt
          · exact absurd h1 hk
          · exact h1
        rw [show idxInsert ((k', cp') :: rest) k cp = (k', cp') :: idxInsert rest k cp from by
          simp [idxInsert, hk, hlt]]
        refine List.pairwise_cons.mpr ⟨?_, ih h.2⟩
        intro e he
        rcases mem_idxInsert he with he | he
        · subst he; exact hgt
        · exact h.1 e he

lemma idxSorted_erase (k : String) :
    ∀ idx : Index, idxSorted idx → idxSorted (idxErase idx k) := by
  intro idx
  induction idx with
  | nil => intro _; simp [idxErase, idxSorted]
  | cons p rest ih =>
    intro h
    obtain ⟨k', cp'⟩ := p
    unfold idxSorted at h ⊢
    rw [List.pairwise_cons] at h
    by_cases hk : k' = k
    · subst hk
      rw [show idxErase ((k', cp') :: rest) k' = idxErase rest k' from by
        simp [idxErase]]
      exact ih h.2
    · rw [show idxErase ((k', cp') :: rest) k = (k', cp') :: idxErase rest k from by
        simp [idxErase, hk]]
      refine List.pairwise_cons.mpr ⟨?_, ih h.2⟩
      intro e he
      exact h.1 e (mem_idxErase he).1

lemma idxInsert_concat {idx : Index} {k : String} (cp : CommandPos)
    (h : ∀ e ∈ idx, e.1 < k) : idxInsert idx k cp = idx ++ [(k, cp)] := by
  induction idx with
  | nil => simp [idxInsert]
  | cons p rest ih =>
    obtain ⟨k', cp'⟩ := p
    have hk' : k' < k := h (k', cp') (List.mem_cons.mpr (Or.inl rfl))
    have h1 : ¬ k = k' := fun hh => absurd (hh ▸ hk') (lt_irrefl k)
    have h2 : ¬ k < k' := fun hh => absurd (lt_trans hh hk') (lt_irrefl k)
    simp only [idxInsert, if_neg h1, if_neg h2, List.cons_append]
    rw [ih (fun e he => h e (List.mem_cons.mpr (Or.inr he)))]

/-! ### Lemmas about the reference map -/

lemma refLookup_erase_self (m : RefMap) (k : String) :
    refLookup (refErase m k) k = none := by
  induction m with
  | nil => rfl
  | cons p rest ih =>
    obtain ⟨k', v⟩ := p
    by_cases h : k' = k
    · subst h; simp [refErase, ih]
    · have h2 : ¬ k = k' := fun hh => h hh.symm
      simp [refErase, h, refLookup, h2, ih]

lemma refLookup_erase_ne (m : RefMap) {k k'' : String} (h : k'' ≠ k) :
    refLookup (refErase m k) k'' = refLookup m k'' := by
  induction m with
  | nil => rfl
  | cons p rest ih =>
    obtain ⟨k', v⟩ := p
    by_cases hk : k' = k
    · subst hk
      have h2 : ¬ k'' = k' := h
      simp [refErase, refLookup, h2, ih]
    · simp [refErase, hk, refLookup, ih]

lemma refLookup_insert_self (m : RefMap) (k v : String) :
    refLookup (refInsert m k v) k = some v := by
  simp [refInsert, refLookup]

lemma refLookup_insert_ne (m : RefMap) {k k'' : String} (v : String)
    (h : k'' ≠ k) : refLookup (refInsert m k v) k'' = refLookup m k'' := by
  simp [refInsert, refLookup, h, refLookup_erase_ne m h]

/-! ### Sorting and generation-list lemmas -/

lemma mem_genListKeys {fs : Fs} {g : Nat} : g ∈ genListKeys fs ↔ g ∈ fsKeys fs :=
  (List.perm_insertionSort _ _).mem_iff

lemma sorted_genListKeys (fs : Fs) : (genListKeys fs).Sorted (· ≤ ·) :=
  List.sorted_insertionSort _ _

lemma nodup_genListKeys {fs : Fs} (h : (fsKeys fs).Nodup) : (genListKeys fs).Nodup :=
  ((List.perm_insertionSort _ _).nodup_iff).mpr h

lemma getLast?_mem {α : Type} : ∀ {l : List α} {m : α}, l.getLast? = some m → m ∈ l := by
  intro l
  induction l with
  | nil => intro m hm; simp at hm
  | cons a t ih =>
    intro m hm
    cases t with
    | nil =>
      simp at hm
      simp [hm]
    | cons b t' =>
      rw [List.getLast?_cons_cons] at hm
      exact List.mem_cons.mpr (Or.inr (ih hm))

lemma sorted_le_getLast :
    ∀ {l : List Nat}, l.Sorted (· ≤ ·) → ∀ {m : Nat}, l.getLast? = some m →
      ∀ x ∈ l, x ≤ m := by
  intro l
  induction l with
  | nil => intro _ m hm; simp at hm
  | cons a t ih =>
    intro hs m hm x hx
    cases t with
    | nil =>
      simp at hm hx
      omega
    | cons b t' =>
      rw [List.getLast?_cons_cons] at hm
      rw [List.sorted_cons] at hs
      rcases List.mem_cons.mp hx with hx | hx
      · subst hx
        exact hs.1 m (getLast?_mem hm)
      · exact ih hs.2 hm x hx

lemma eq_dropLast_concat {l : List Nat} {m : Nat} (h : l.getLast? = some m) :
    l = l.dropLast ++ [m] := by
  have hne : l ≠ [] := by
    intro hl; subst hl; simp at h
  have hm : l.getLast hne = m := by
    have := List.getLast?_eq_getLast l hne
    rw [this] at h
    exact Option.some.inj h
  rw [← hm]
  exact (List.dropLast_concat_getLast hne).symm

lemma insertionSort_concat_big {l : List Nat} {b : Nat} (hall : ∀ x ∈ l, x ≤ b) :
    List.insertionSort (· ≤ ·) (l ++ [b]) = List.insertionSort (· ≤ ·) l ++ [b] := by
  have hp : (List.insertionSort (· ≤ ·) (l ++ [b])).Perm
      (List.insertionSort (· ≤ ·) l ++ [b]) :=
    (List.perm_insertionSort _ _).trans
      ((List.perm_insertionSort (· ≤ ·) l).symm.append_right [b])
  have hs2 : (List.insertionSort (· ≤ ·) l ++ [b]).Sorted (· ≤ ·) := by
    rw [List.Sorted, List.pairwise_append]
    refine ⟨List.sorted_insertionSort _ _, List.pairwise_singleton _ _, ?_⟩
    intro x hx y hy
    rw [List.mem_singleton] at hy
    subst hy
    exact hall x ((List.perm_insertionSort _ _).mem_iff.mp hx)
  exact @List.eq_of_perm_of_sorted Nat (· ≤ ·) inferInstance _ _ hp
    (List.sorted_insertionSort _ _) hs2

lemma genListKeys_fsSet_mem (fs : Fs) {g : Nat} (f : LogFile) (h : g ∈ fsKeys fs) :
    genListKeys (fsSet fs g f) = genListKeys fs := by
  unfold genListKeys
  rw [fsKeys_fsSet_mem fs f h]

/-! ### Reader-set lemmas -/

lemma readersInsert_not_mem {rs : List Nat} {g : Nat} (h : g ∉ rs) :
    readersInsert rs g = rs ++ [g] := by
  simp [readersInsert, h]

lemma mem_readersInsert {rs : List Nat} {g x : Nat} :
    x ∈ readersInsert rs g ↔ x ∈ rs ∨ x = g := by
  unfold readersInsert
  split
  · next hg =>
    constructor
    · exact fun h => Or.inl h
    · intro h
      rcases h with h | h
      · exact h
      · subst h; exact hg
  · simp [List.mem_append]

/-! ### Fold lemmas -/

lemma foldl_congr_mem {α β : Type} {l : List α} {f g : β → α → β}
    (h : ∀ x ∈ l, ∀ b, f b x = g b x) : ∀ b, l.foldl f b = l.foldl g b := by
  induction l with
  | nil => intro b; rfl
  | cons a t ih =>
    intro b
    rw [List.foldl_cons, List.foldl_cons, h a (List.mem_cons.mpr (Or.inl rfl)) b]
    exact ih (fun x hx b' => h x (List.mem_cons.mpr (Or.inr hx)) b') _

lemma foldl_fsErase_eq_filter :
    ∀ (gs : List Nat) (fs : Fs),
      gs.foldl fsErase fs = fs.filter (fun p => decide (p.1 ∉ gs)) := by
  intro gs
  induction gs with
  | nil => intro fs; simp
  | cons g gs' ih =>
    intro fs
    rw [List.foldl_cons, ih (fsErase fs g), fsErase_eq_filter, List.filter_filter]
    apply List.filter_congr
    intro p _
    by_cases h1 : p.1 = g
    · simp [h1]
    · by_cases h2 : p.1 ∈ gs'
      · simp [h1, h2]
      · simp [h1, h2]

/-! ### Recovery-scan lemmas -/

lemma buildGo_append (gen : Nat) :
    ∀ (f1 f2 : List Command) (p : Nat) (idx : Index) (cb : Nat),
      buildGo gen (f1 ++ f2) p idx cb =
        buildGo gen f2 (p + byteLen f1) (buildGo gen f1 p idx cb).1
          (buildGo gen f1 p idx cb).2 := by
  intro f1
  induction f1 with
  | nil =>
    intro f2 p idx cb
    simp [buildGo, byteLen]
  | cons c rest ih =>
    intro f2 p idx cb
    cases c with
    | set k v =>
      simp only [List.cons_append, buildGo, byteLen_cons, List.append_eq]
      rw [ih]
      rw [← Nat.add_assoc]
    | remove k =>
      simp only [List.cons_append, buildGo, byteLen_cons, List.append_eq]
      rw [ih]
      rw [← Nat.add_assoc]

lemma buildGo_mem (gen : Nat) (f0 : LogFile) (P : String × CommandPos → Prop)
    (hnew : ∀ (k v : String) (pre suf : LogFile),
      pre ++ Command.set k v :: suf = f0 →
      P (k, ⟨gen, byteLen pre, encLen (Command.set k v)⟩)) :
    ∀ (f pre : LogFile) (idx : Index) (cb : Nat), pre ++ f = f0 →
      (∀ e ∈ idx, P e) → ∀ e ∈ (buildGo gen f (byteLen pre) idx cb).1, P e := by
  intro f
  induction f with
  | nil =>
    intro pre idx cb hsplit hidx e he
    simp only [buildGo] at he
    exact hidx e he
  | cons c rest ih =>
    intro pre idx cb hsplit hidx e he
    have hbl : byteLen (pre ++ [c]) = byteLen pre + encLen c := by
      rw [byteLen_append, byteLen_cons, byteLen_nil]
      omega
    have hsplit' : (pre ++ [c]) ++ rest = f0 := by
      rw [List.append_cons] at hsplit
      exact hsplit
    cases c with
    | set k v =>
      simp only [buildGo, Nat.add_sub_cancel_left] at he
      refine ih (pre ++ [Command.set k v])
        (idxInsert idx k ⟨gen, byteLen pre, encLen (Command.set k v)⟩)
        (cb + (match idxLookup idx k with | some old => old.len | none => 0))
        hsplit' ?_ e ?_
      · intro e' he'
        rcases mem_idxInsert he' with h' | h'
        · subst h'
          exact hnew k v pre rest hsplit
        · exact hidx e' h'
      · rw [hbl]
        exact he
    | remove k =>
      simp only [buildGo, Nat.add_sub_cancel_left] at he
      refine ih (pre ++ [Command.remove k]) (idxErase idx k)
        (cb + (match idxLookup idx k with | some old => old.len | none => 0)
          + encLen (Command.remove k))
        hsplit' ?_ e ?_
      · intro e' he'
        exact hidx e' (mem_idxErase he').1
      · rw [hbl]
        exact he

lemma buildIndexFromLog_mem (g : Nat) (F : LogFile) (idx : Index)
    (P : String × CommandPos → Prop)
    (hidx : ∀ e ∈ idx, P e)
    (hnew : ∀ (k v : String) (pre suf : LogFile), pre ++ Command.set k v :: suf = F →
      P (k, ⟨g, byteLen pre, encLen (Command.set k v)⟩)) :
    ∀ e ∈ (buildIndexFromLog g F idx).1, P e := by
  intro e he
  exact buildGo_mem g F P hnew F [] idx 0 rfl hidx e he

lemma buildGo_sorted (gen : Nat) :
    ∀ (f : List Command) (p : Nat) (idx : Index) (cb : Nat),
      idxSorted idx → idxSorted (buildGo gen f p idx cb).1 := by
  intro f
  induction f with
  | nil =>
    intro p idx cb h
    simpa [buildGo] using h
  | cons c rest ih =>
    intro p idx cb h
    cases c with
    | set k v =>
      simp only [buildGo]
      exact ih _ _ _ (idxSorted_insert _ _ _ h)
    | remove k =>
      simp only [buildGo]
      exact ih _ _ _ (idxSorted_erase _ _ h)

/-! ### Replay decomposition -/

lemma replayIdx_nil (fs : Fs) (idx : Index) : replayIdx fs [] idx = idx := rfl

lemma replayIdx_cons (fs : Fs) (g : Nat) (gs : List Nat) (idx : Index) :
    replayIdx fs (g :: gs) idx =
      replayIdx fs gs ((buildIndexFromLog g (fsGetD fs g) idx).1) := rfl

lemma replayIdx_append (fs : Fs) (gs1 gs2 : List Nat) (idx : Index) :
    replayIdx fs (gs1 ++ gs2) idx = replayIdx fs gs2 (replayIdx fs gs1 idx) := by
  unfold replayIdx
  rw [List.foldl_append]

lemma replay_fold_fst (fs : Fs) :
    ∀ (gs : List Nat) (idx : Index) (cb : Nat),
      (gs.foldl (fun acc g =>
        let r := buildIndexFromLog g (fsGetD fs g) acc.1
        (r.1, acc.2 + r.2)) (idx, cb)).1
      = replayIdx fs gs idx := by
  intro gs
  induction gs with
  | nil => intro idx cb; rfl
  | cons g gs' ih =>
    intro idx cb
    simp only [List.foldl_cons]
    exact ih _ _

lemma rebuildIndex_eq (fs : Fs) :
    rebuildIndex fs = replayIdx fs (genListKeys fs) [] :=
  replay_fold_fst fs (genListKeys fs) [] 0

lemma replayIdx_congr {fs1 fs2 : Fs} :
    ∀ {gs : List Nat}, (∀ g ∈ gs, fsGetD fs1 g = fsGetD fs2 g) →
      ∀ idx, replayIdx fs1 gs idx = replayIdx fs2 gs idx := by
  intro gs
  induction gs with
  | nil => intro _ idx; rfl
  | cons g gs' ih =>
    intro h idx
    rw [replayIdx_cons, replayIdx_cons, h g (List.mem_cons.mpr (Or.inl rfl))]
    exact ih (fun x hx => h x (List.mem_cons.mpr (Or.inr hx))) _

lemma replayIdx_mem (fs : Fs) (P : String × CommandPos → Prop) :
    ∀ (gs : List Nat),
      (∀ g ∈ gs, ∀ (k v : String) (pre suf : LogFile),
        pre ++ Command.set k v :: suf = fsGetD fs g →
        P (k, ⟨g, byteLen pre, encLen (Command.set k v)⟩)) →
      ∀ idx, (∀ e ∈ idx, P e) → ∀ e ∈ replayIdx fs gs idx, P e := by
  intro gs
  induction gs with
  | nil =>
    intro _ idx hidx e he
    rw [replayIdx_nil] at he
    exact hidx e he
  | cons g gs' ih =>
    intro hnew idx hidx e he
    rw [replayIdx_cons] at he
    refine ih (fun x hx => hnew x (List.mem_cons.mpr (Or.inr hx))) _ ?_ e he
    exact buildIndexFromLog_mem g _ idx P hidx
      (hnew g (List.mem_cons.mpr (Or.inl rfl)))

lemma replayIdx_sorted (fs : Fs) :
    ∀ (gs : List Nat) (idx : Index), idxSorted idx →
      idxSorted (replayIdx fs gs idx) := by
  intro gs
  induction gs with
  | nil => intro idx h; exact h
  | cons g gs' ih =>
    intro idx h
    rw [replayIdx_cons]
    exact ih _ (buildGo_sorted g _ _ _ _ h)

/-! ### Compaction-copy lemmas -/

lemma isSetFor_eq_some {k : String} {o : Option Command}
    (h : isSetFor k o = true) : ∃ v, o = some (Command.set k v) := by
  cases o with
  | none => simp [isSetFor] at h
  | some c =>
    cases c with
    | set k' v =>
      simp only [isSetFor, beq_iff_eq] at h
      exact ⟨v, by rw [h]⟩
    | remove k' => simp [isSetFor] at h

lemma reindex_keys (cgen : Nat) :
    ∀ (entries : Index) (p : Nat),
      (reindex cgen p entries).map (fun e => e.1) = entries.map (fun e => e.1) := by
  intro entries
  induction entries with
  | nil => intro p; rfl
  | cons e rest ih =>
    intro p
    obtain ⟨k, cp⟩ := e
    simp [reindex, ih]

lemma mem_reindex_gen (cgen : Nat) :
    ∀ (entries : Index) (p : Nat) (e : String × CommandPos),
      e ∈ reindex cgen p entries → e.2.gen = cgen := by
  intro entries
  induction entries with
  | nil => intro p e he; simp [reindex] at he
  | cons ent rest ih =>
    intro p e he
    obtain ⟨k, cp⟩ := ent
    rw [show reindex cgen p ((k, cp) :: rest)
        = (k, ⟨cgen, p, cp.len⟩) :: reindex cgen (p + cp.len) rest from rfl,
      List.mem_cons] at he
    rcases he with he | he
    · subst he; rfl
    · exact ih _ e he

lemma reindex_sorted (cgen : Nat) :
    ∀ (entries : Index) (p : Nat), idxSorted entries →
      idxSorted (reindex cgen p entries) := by
  intro entries p h
  unfold idxSorted at h ⊢
  rw [← List.pairwise_map (f := fun e : String × CommandPos => e.1)] at h ⊢
  rw [reindex_keys]
  exact h

lemma compactCopy_eq (fsrc : Fs) (cgen : Nat) :
    ∀ (entries : Index) (p : Nat),
      (∀ e ∈ entries, entryDecodes fsrc e) →
      compactCopy fsrc cgen entries p =
        (entries.map (decodeE fsrc), reindex cgen p entries) := by
  intro entries
  induction entries with
  | nil => intro p _; rfl
  | cons ent rest ih =>
    intro p hdec
    obtain ⟨k, cp⟩ := ent
    have hd : entryDecodes fsrc (k, cp) := hdec _ (List.mem_cons.mpr (Or.inl rfl))
    obtain ⟨v, hv⟩ := isSetFor_eq_some hd
    have hdE : decodeE fsrc (k, cp) = Command.set k v := by
      simp [decodeE]
      rw [show readAt (fsGetD fsrc cp.gen) cp.pos cp.len = some (Command.set k v) from hv]
      rfl
    simp only [compactCopy]
    rw [show readAt (fsGetD fsrc cp.gen) cp.pos cp.len = some (Command.set k v) from hv]
    rw [ih (p + cp.len) (fun x hx => hdec x (List.mem_cons.mpr (Or.inr hx)))]
    simp [reindex, hdE]

lemma buildGo_decoded (fsrc : Fs) (cgen : Nat) :
    ∀ (entries : Index) (p : Nat) (idxAcc : Index) (cb : Nat),
      (∀ e ∈ entries, entryDecodes fsrc e) →
      idxSorted entries →
      (∀ a ∈ idxAcc, ∀ b ∈ entries, a.1 < b.1) →
      (buildGo cgen (entries.map (decodeE fsrc)) p idxAcc cb).1
        = idxAcc ++ reindex cgen p entries := by
  intro entries
  induction entries with
  | nil => intro p idxAcc cb _ _ _; simp [buildGo, reindex]
  | cons ent rest ih =>
    intro p idxAcc cb hdec hsort hlt
    obtain ⟨k, cp⟩ := ent
    have hd : entryDecodes fsrc (k, cp) := hdec _ (List.mem_cons.mpr (Or.inl rfl))
    obtain ⟨v, hv⟩ := isSetFor_eq_some hd
    have hlen : cp.len = encLen (Command.set k v) := readAt_eq_some_encLen hv
    have hdE : decodeE fsrc (k, cp) = Command.set k v := by
      simp [decodeE]
      rw [show readAt (fsGetD fsrc cp.gen) cp.pos cp.len = some (Command.set k v) from hv]
      rfl
    unfold idxSorted at hsort
    rw [List.pairwise_cons] at hsort
    simp only [List.map_cons, hdE, buildGo, Nat.add_sub_cancel_left]
    rw [idxInsert_concat _ (fun a ha => show a.1 < k from
      hlt a ha (k, cp) (List.mem_cons.mpr (Or.inl rfl)))]
    have hih := ih (p + encLen (Command.set k v))
      (idxAcc ++ [(k, (⟨cgen, p, encLen (Command.set k v)⟩ : CommandPos))])
      (cb + (match idxLookup idxAcc k with | some old => old.len | none => 0))
      (fun x hx => hdec x (List.mem_cons.mpr (Or.inr hx))) hsort.2
      (by
        intro a ha b hb
        rcases List.mem_append.mp ha with ha' | ha'
        · exact hlt a ha' b (List.mem_cons.mpr (Or.inr hb))
        · rw [List.mem_singleton] at ha'
          subst ha'
          exact hsort.1 b hb)
    rw [hih]
    rw [List.append_assoc]
    rw [show reindex cgen p ((k, cp) :: rest)
      = (k, ⟨cgen, p, cp.len⟩) :: reindex cgen (p + cp.len) rest from rfl]
    rw [hlen]
    simp

lemma reindex_decodes_new (fsrc : Fs) (cgen : Nat) (F : LogFile) :
    ∀ (entries : Index) (pre : LogFile),
      pre ++ entries.map (decodeE fsrc) = F →
      (∀ e ∈ entries, entryDecodes fsrc e) →
      ∀ e ∈ reindex cgen (byteLen pre) entries,
        isSetFor e.1 (readAt F e.2.pos e.2.len) = true := by
  intro entries
  induction entries with
  | nil => intro pre _ _ e he; simp [reindex] at he
  | cons ent rest ih =>
    intro pre hF hdec e he
    obtain ⟨k, cp⟩ := ent
    have hd : entryDecodes fsrc (k, cp) := hdec _ (List.mem_cons.mpr (Or.inl rfl))
    obtain ⟨v, hv⟩ := isSetFor_eq_some hd
    have hlen : cp.len = encLen (Command.set k v) := readAt_eq_some_encLen hv
    have hdE : decodeE fsrc (k, cp) = Command.set k v := by
      simp [decodeE]
      rw [show readAt (fsGetD fsrc cp.gen) cp.pos cp.len = some (Command.set k v) from hv]
      rfl
    rw [show reindex cgen (byteLen pre) ((k, cp) :: rest)
        = (k, ⟨cgen, byteLen pre, cp.len⟩) :: reindex cgen (byteLen pre + cp.len) rest from rfl,
      List.mem_cons] at he
    rcases he with he | he
    · subst he
      rw [← hF, List.map_cons, hdE, readAt_concat, if_pos hlen]
      simp [isSetFor]
    · have hF' : (pre ++ [Command.set k v]) ++ rest.map (decodeE fsrc) = F := by
        rw [← hF, List.map_cons, hdE, ← List.append_cons]
      have hbl : byteLen (pre ++ [Command.set k v]) = byteLen pre + cp.len := by
        rw [byteLen_append, byteLen_cons, byteLen_nil, hlen]
        omega
      refine ih (pre ++ [Command.set k v]) hF'
        (fun x hx => hdec x (List.mem_cons.mpr (Or.inr hx))) e ?_
      rw [hbl]
      exact he

lemma reindex_lookup_value (fsrc : Fs) (cgen : Nat) (F : LogFile) :
    ∀ (entries : Index) (pre : LogFile),
      pre ++ entries.map (decodeE fsrc) = F →
      (∀ e ∈ entries, entryDecodes fsrc e) →
      ∀ key,
        (match idxLookup (reindex cgen (byteLen pre) entries) key with
         | none => none
         | some cp => readAt F cp.pos cp.len)
        = (match idxLookup entries key with
           | none => none
           | some cp => readAt (fsGetD fsrc cp.gen) cp.pos cp.len) := by
  intro entries
  induction entries with
  | nil => intro pre _ _ key; rfl
  | cons ent rest ih =>
    intro pre hF hdec key
    obtain ⟨k, cp⟩ := ent
    have hd : entryDecodes fsrc (k, cp) := hdec _ (List.mem_cons.mpr (Or.inl rfl))
    obtain ⟨v, hv⟩ := isSetFor_eq_some hd
    have hlen : cp.len = encLen (Command.set k v) := readAt_eq_some_encLen hv
    have hdE : decodeE fsrc (k, cp) = Command.set k v := by
      simp [decodeE]
      rw [show readAt (fsGetD fsrc cp.gen) cp.pos cp.len = some (Command.set k v) from hv]
      rfl
    rw [show reindex cgen (byteLen pre) ((k, cp) :: rest)
        = (k, ⟨cgen, byteLen pre, cp.len⟩) :: reindex cgen (byteLen pre + cp.len) rest from rfl]
    by_cases hk : key = k
    · subst hk
      have hl1 : idxLookup ((key, (⟨cgen, byteLen pre, cp.len⟩ : CommandPos))
          :: reindex cgen (byteLen pre + cp.len) rest) key
          = some ⟨cgen, byteLen pre, cp.len⟩ := by
        simp [idxLookup]
      have hl2 : idxLookup ((key, cp) :: rest) key = some cp := by
        simp [idxLookup]
      rw [hl1, hl2]
      show readAt F (byteLen pre) cp.len = readAt (fsGetD fsrc cp.gen) cp.pos cp.len
      rw [show readAt (fsGetD fsrc cp.gen) cp.pos cp.len = some (Command.set key v) from hv]
      rw [← hF, List.map_cons, hdE, readAt_concat, if_pos hlen]
    · simp only [idxLookup, if_neg hk]
      have hF' : (pre ++ [Command.set k v]) ++ rest.map (decodeE fsrc) = F := by
        rw [← hF, List.map_cons, hdE, ← List.append_cons]
      have hbl : byteLen (pre ++ [Command.set k v]) = byteLen pre + cp.len := by
        rw [byteLen_append, byteLen_cons, byteLen_nil, hlen]
        omega
      rw [← hbl]
      exact ih (pre ++ [Command.set k v]) hF'
        (fun x hx => hdec x (List.mem_cons.mpr (Or.inr hx))) key

lemma fsSet_append_right (fs2 : Fs) {g : Nat} (f : LogFile) :
    ∀ fs1 : Fs, g ∉ fsKeys fs1 → fsSet (fs1 ++ fs2) g f = fs1 ++ fsSet fs2 g f := by
  intro fs1
  induction fs1 with
  | nil => intro _; rfl
  | cons p rest ih =>
    intro h
    obtain ⟨g', f'⟩ := p
    rw [fsKeys_cons, List.mem_cons] at h
    push_neg at h
    have h1 : ¬ g' = g := fun hh => h.1 hh.symm
    simp only [List.cons_append, fsSet, if_neg h1, List.append_eq]
    rw [ih h.2]

/-! ### The effect of compaction -/

lemma fsSet_fsSet (g : Nat) (f1 f2 : LogFile) :
    ∀ fs : Fs, fsSet (fsSet fs g f1) g f2 = fsSet fs g f2 := by
  intro fs
  induction fs with
  | nil => simp [fsSet]
  | cons p rest ih =>
    obtain ⟨g', f'⟩ := p
    by_cases h : g' = g
    · subst h; simp [fsSet]
    · simp [fsSet, h, ih]

lemma mem_fsKeys_of_mem {fs : Fs} {p : Nat × LogFile} (h : p ∈ fs) :
    p.1 ∈ fsKeys fs :=
  List.mem_map_of_mem (fun q => q.1) h

lemma compact_eq (s : KvStore) (hwf : WF s) :
    s.compact = { currentGen := s.currentGen + 2,
                  readers := [s.currentGen + 2, s.currentGen + 1],
                  index := reindex (s.currentGen + 1) 0 s.index,
                  canbeCompacted := 0,
                  files := [(s.currentGen + 2, []),
                            (s.currentGen + 1, s.index.map (decodeE s.files))] } := by
  obtain ⟨h1, h2, h3, h4, h5, h6, h7, h8, h9, h10, h11⟩ := hwf
  have hk_le : ∀ g ∈ fsKeys s.files, g ≤ s.currentGen := fun g hg => h4 g (h7 g hg)
  have hng_nk : (s.currentGen + 2) ∉ fsKeys s.files := fun hm => by
    have := hk_le _ hm; omega
  have hcg_nk : (s.currentGen + 1) ∉ fsKeys s.files := fun hm => by
    have := hk_le _ hm; omega
  have hng_nr : (s.currentGen + 2) ∉ s.readers := fun hm => by
    have := h4 _ hm; omega
  have hcg_nr : (s.currentGen + 1) ∉ s.readers := fun hm => by
    have := h4 _ hm; omega
  have hA : fsGetD s.files (s.currentGen + 2) = [] := fsGetD_not_mem _ hng_nk
  have hgetA : fsGetD (fsSet s.files (s.currentGen + 2) []) (s.currentGen + 1) = [] := by
    rw [fsGetD_fsSet_ne _ _ (by omega : s.currentGen + 1 ≠ s.currentGen + 2)]
    exact fsGetD_not_mem _ hcg_nk
  have hgetB : fsGetD (fsSet (fsSet s.files (s.currentGen + 2) [])
      (s.currentGen + 1) []) (s.currentGen + 1) = [] := fsGetD_fsSet_self _ _ _
  have hdecB : ∀ e ∈ s.index,
      entryDecodes (fsSet (fsSet s.files (s.currentGen + 2) [])
        (s.currentGen + 1) []) e := by
    intro e he
    have hg : e.2.gen ≤ s.currentGen := h4 _ (h3 e he)
    unfold entryDecodes
    rw [fsGetD_fsSet_ne _ _ (by omega : e.2.gen ≠ s.currentGen + 1),
      fsGetD_fsSet_ne _ _ (by omega : e.2.gen ≠ s.currentGen + 2)]
    exact h2 e he
  have hmap : s.index.map (decodeE (fsSet (fsSet s.files (s.currentGen + 2) [])
      (s.currentGen + 1) [])) = s.index.map (decodeE s.files) := by
    apply List.map_congr_left
    intro e he
    have hg : e.2.gen ≤ s.currentGen := h4 _ (h3 e he)
    unfold decodeE
    rw [fsGetD_fsSet_ne _ _ (by omega : e.2.gen ≠ s.currentGen + 1),
      fsGetD_fsSet_ne _ _ (by omega : e.2.gen ≠ s.currentGen + 2)]
  have hrA : readersInsert s.readers (s.currentGen + 2)
      = s.readers ++ [s.currentGen + 2] := readersInsert_not_mem hng_nr
  have hcg_nrA : (s.currentGen + 1) ∉ s.readers ++ [s.currentGen + 2] := by
    intro hm
    rcases List.mem_append.mp hm with hm | hm
    · exact hcg_nr hm
    · rw [List.mem_singleton] at hm; omega
  have hrB : readersInsert (s.readers ++ [s.currentGen + 2]) (s.currentGen + 1)
      = (s.readers ++ [s.currentGen + 2]) ++ [s.currentGen + 1] :=
    readersInsert_not_mem hcg_nrA
  have hfiltKeep : ((s.readers ++ [s.currentGen + 2]) ++ [s.currentGen + 1]).filter
      (fun g => decide (¬ g < s.currentGen + 1))
      = [s.currentGen + 2, s.currentGen + 1] := by
    rw [List.filter_append, List.filter_append]
    have e1 : s.readers.filter (fun g => decide (¬ g < s.currentGen + 1)) = [] := by
      rw [List.filter_eq_nil_iff]
      intro g hg
      have := h4 g hg
      simp
      omega
    rw [e1]
    have e2 : [s.currentGen + 2].filter (fun g => decide (¬ g < s.currentGen + 1))
        = [s.currentGen + 2] := by
      simp
    have e3 : [s.currentGen + 1].filter (fun g => decide (¬ g < s.currentGen + 1))
        = [s.currentGen + 1] := by
      simp
    rw [e2, e3]
    rfl
  have hfiltStale : ((s.readers ++ [s.currentGen + 2]) ++ [s.currentGen + 1]).filter
      (fun g => decide (g < s.currentGen + 1)) = s.readers := by
    rw [List.filter_append, List.filter_append]
    have e1 : s.readers.filter (fun g => decide (g < s.currentGen + 1)) = s.readers := by
      rw [List.filter_eq_self]
      intro g hg
      have := h4 g hg
      simp
      omega
    have e2 : [s.currentGen + 2].filter (fun g => decide (g < s.currentGen + 1)) = [] := by
      simp
    have e3 : [s.currentGen + 1].filter (fun g => decide (g < s.currentGen + 1)) = [] := by
      simp
    rw [e1, e2, e3]
    simp
  have hfsA : fsSet s.files (s.currentGen + 2) [] = s.files ++ [(s.currentGen + 2, [])] :=
    fsSet_not_mem _ _ hng_nk
  have hfsFinal : fsSet (fsSet (fsSet s.files (s.currentGen + 2) [])
        (s.currentGen + 1) []) (s.currentGen + 1) (s.index.map (decodeE s.files))
      = s.files ++ [(s.currentGen + 2, []),
          (s.currentGen + 1, s.index.map (decodeE s.files))] := by
    rw [fsSet_fsSet, hfsA,
      fsSet_append_right _ _ s.files hcg_nk]
    congr 1
    simp [fsSet]
  have hfoldErase : s.readers.foldl fsErase
      (s.files ++ [(s.currentGen + 2, []),
        (s.currentGen + 1, s.index.map (decodeE s.files))])
      = [(s.currentGen + 2, []),
         (s.currentGen + 1, s.index.map (decodeE s.files))] := by
    rw [foldl_fsErase_eq_filter, List.filter_append]
    have e1 : s.files.filter (fun p => decide (p.1 ∉ s.readers)) = [] := by
      rw [List.filter_eq_nil_iff]
      intro p hp
      have : p.1 ∈ s.readers := h7 _ (mem_fsKeys_of_mem hp)
      simp [this]
    have e2 : ([(s.currentGen + 2, ([] : LogFile)),
        (s.currentGen + 1, s.index.map (decodeE s.files))]).filter
          (fun p => decide (p.1 ∉ s.readers))
        = [(s.currentGen + 2, []),
           (s.currentGen + 1, s.index.map (decodeE s.files))] := by
      rw [List.filter_eq_self]
      intro p hp
      rcases List.mem_cons.mp hp with hp | hp
      · subst hp; simp [hng_nr]
      · rw [List.mem_singleton] at hp
        subst hp; simp [hcg_nr]
    rw [e1, e2]
    rfl
  show KvStore.compact s = _
  unfold KvStore.compact
  simp only [hA, hgetA, hgetB, List.nil_append]
  rw [compactCopy_eq _ _ s.index 0 hdecB]
  simp only [hmap, hrA, hrB, hfiltKeep, hfiltStale, hfsFinal, hfoldErase]

lemma idxLookup_reindex_none {cgen : Nat} {entries : Index} {p : Nat} {key : String} :
    idxLookup (reindex cgen p entries) key = none ↔ idxLookup entries key = none := by
  constructor
  · intro h
    apply idxLookup_not_mem_eq_none
    have h' := idxLookup_eq_none_not_mem h
    rw [reindex_keys] at h'
    exact h'
  · intro h
    apply idxLookup_not_mem_eq_none
    rw [reindex_keys]
    exact idxLookup_eq_none_not_mem h

lemma WF_compact {s : KvStore} (hwf : WF s) : WF s.compact := by
  have hc := compact_eq s hwf
  obtain ⟨h1, h2, h3, h4, h5, h6, h7, h8, h9, h10, h11⟩ := hwf
  rw [hc]
  have hgl : genListKeys [(s.currentGen + 2, ([] : LogFile)),
      (s.currentGen + 1, s.index.map (decodeE s.files))]
      = [s.currentGen + 1, s.currentGen + 2] := by
    unfold genListKeys fsKeys
    simp [List.insertionSort, List.orderedInsert,
      show ¬(s.currentGen + 2 ≤ s.currentGen + 1) from by omega]
  have hget1 : fsGetD [(s.currentGen + 2, ([] : LogFile)),
      (s.currentGen + 1, s.index.map (decodeE s.files))] (s.currentGen + 1)
      = s.index.map (decodeE s.files) := by
    simp [fsGetD, show ¬ (s.currentGen + 2 = s.currentGen + 1) from by omega]
  have hget2 : fsGetD [(s.currentGen + 2, ([] : LogFile)),
      (s.currentGen + 1, s.index.map (decodeE s.files))] (s.currentGen + 2) = [] := by
    simp [fsGetD]
  unfold WF
  dsimp only
  refine ⟨?_, ?_, ?_, ?_, ?_, ?_, ?_, ?_, ?_, ?_, ?_⟩
  · rw [rebuildIndex_eq, hgl, replayIdx_cons, hget1, replayIdx_cons, hget2, replayIdx_nil]
    have houter : ∀ idx : Index, (buildIndexFromLog (s.currentGen + 2) [] idx).1 = idx :=
      fun _ => rfl
    rw [houter]
    have hbd := buildGo_decoded s.files (s.currentGen + 1) s.index 0 [] 0 h2 h10
      (by intro a ha b hb; exact absurd ha (List.not_mem_nil a))
    simpa using hbd
  · intro e he
    have hgen : e.2.gen = s.currentGen + 1 := mem_reindex_gen _ _ _ e he
    unfold entryDecodes
    rw [hgen, hget1]
    exact reindex_decodes_new s.files (s.currentGen + 1) _ s.index [] rfl h2 e he
  · intro e he
    have hgen : e.2.gen = s.currentGen + 1 := mem_reindex_gen _ _ _ e he
    rw [hgen]
    simp
  · intro g hg
    rw [List.mem_cons, List.mem_singleton] at hg
    rcases hg with hg | hg <;> omega
  · simp
  · intro g hg
    rw [List.mem_cons, List.mem_singleton] at hg
    unfold fsKeys
    simp
    exact hg
  · intro g hg
    unfold fsKeys at hg
    simp at hg
    rw [List.mem_cons, List.mem_singleton]
    exact hg
  · unfold fsKeys
    simp
  · simp
  · exact reindex_sorted _ _ _ h10
  · rw [hgl]
    rfl

lemma valOf_compact {s : KvStore} (hwf : WF s) (key : String) :
    valOf s.compact key = valOf s key := by
  have hc := compact_eq s hwf
  obtain ⟨h1, h2, h3, h4, h5, h6, h7, h8, h9, h10, h11⟩ := hwf
  have hget1 : fsGetD [(s.currentGen + 2, ([] : LogFile)),
      (s.currentGen + 1, s.index.map (decodeE s.files))] (s.currentGen + 1)
      = s.index.map (decodeE s.files) := by
    simp [fsGetD, show ¬ (s.currentGen + 2 = s.currentGen + 1) from by omega]
  have hrlv := reindex_lookup_value s.files (s.currentGen + 1)
    (s.index.map (decodeE s.files)) s.index [] rfl h2 key
  unfold valOf
  rw [hc]
  dsimp only
  cases hnew : idxLookup (reindex (s.currentGen + 1) 0 s.index) key with
  | none =>
    have hold : idxLookup s.index key = none := idxLookup_reindex_none.mp hnew
    rw [hold]
  | some cp' =>
    have hgen : cp'.gen = s.currentGen + 1 :=
      mem_reindex_gen _ _ _ _ (idxLookup_eq_some_mem hnew)
    cases hold : idxLookup s.index key with
    | none =>
      have hcontra : idxLookup (reindex (s.currentGen + 1) 0 s.index) key = none :=
        idxLookup_reindex_none.mpr hold
      rw [hcontra] at hnew
      cases hnew
    | some cp =>
      rw [show idxLookup (reindex (s.currentGen + 1) (byteLen []) s.index) key
          = some cp' from hnew, hold] at hrlv
      dsimp only at hrlv
      dsimp only
      rw [hgen, hget1, hrlv]

/-! ### The effect of set and remove -/

lemma buildIndexFromLog_concat_set (gen : Nat) (f : LogFile) (k v : String) (idx : Index) :
    (buildIndexFromLog gen (f ++ [Command.set k v]) idx).1
      = idxInsert (buildIndexFromLog gen f idx).1 k
          ⟨gen, byteLen f, encLen (Command.set k v)⟩ := by
  unfold buildIndexFromLog
  rw [buildGo_append]
  simp only [buildGo, Nat.add_sub_cancel_left, Nat.zero_add]

lemma buildIndexFromLog_concat_remove (gen : Nat) (f : LogFile) (k : String) (idx : Index) :
    (buildIndexFromLog gen (f ++ [Command.remove k]) idx).1
      = idxErase (buildIndexFromLog gen f idx).1 k := by
  unfold buildIndexFromLog
  rw [buildGo_append]
  simp only [buildGo]

lemma rebuild_active_append {s : KvStore} (hwf : WF s) (c : Command) :
    rebuildIndex (fsSet s.files s.currentGen (fsGetD s.files s.currentGen ++ [c]))
      = (match c with
         | Command.set k _ => idxInsert s.index k
             ⟨s.currentGen, byteLen (fsGetD s.files s.currentGen), encLen c⟩
         | Command.remove k => idxErase s.index k) := by
  obtain ⟨h1, h2, h3, h4, h5, h6, h7, h8, h9, h10, h11⟩ := hwf
  have hcur_k : s.currentGen ∈ fsKeys s.files := h6 _ h5
  obtain ⟨pre, hpre, hnpre⟩ : ∃ pre, genListKeys s.files = pre ++ [s.currentGen]
      ∧ s.currentGen ∉ pre := by
    refine ⟨(genListKeys s.files).dropLast, eq_dropLast_concat h11, ?_⟩
    have hnd := nodup_genListKeys h8
    rw [eq_dropLast_concat h11] at hnd
    intro hmem
    exact (List.nodup_append.mp hnd).2.2 hmem (List.mem_singleton.mpr rfl)
  rw [rebuildIndex_eq, genListKeys_fsSet_mem _ _ hcur_k, hpre, replayIdx_append]
  have hcongr : replayIdx (fsSet s.files s.currentGen
        (fsGetD s.files s.currentGen ++ [c])) pre []
      = replayIdx s.files pre [] :=
    replayIdx_congr (fun g hg => fsGetD_fsSet_ne _ _
      (fun he : g = s.currentGen => hnpre (by rw [he] at hg; exact hg))) []
  rw [hcongr, replayIdx_cons, replayIdx_nil, fsGetD_fsSet_self]
  have hidx : (buildIndexFromLog s.currentGen (fsGetD s.files s.currentGen)
      (replayIdx s.files pre [])).1 = s.index := by
    rw [← h1, rebuildIndex_eq, hpre, replayIdx_append, replayIdx_cons, replayIdx_nil]
  cases c with
  | set k v => rw [buildIndexFromLog_concat_set, hidx]
  | remove k => rw [buildIndexFromLog_concat_remove, hidx]

lemma entryDecodes_append_active {s : KvStore}
    (h2 : ∀ e ∈ s.index, entryDecodes s.files e)
    (c : Command) {e : String × CommandPos} (he : e ∈ s.index) :
    entryDecodes (fsSet s.files s.currentGen
      (fsGetD s.files s.currentGen ++ [c])) e := by
  by_cases hgen : e.2.gen = s.currentGen
  · unfold entryDecodes
    rw [hgen, fsGetD_fsSet_self]
    have hd := h2 e he
    unfold entryDecodes at hd
    rw [hgen] at hd
    obtain ⟨v, hv⟩ := isSetFor_eq_some hd
    rw [readAt_append_some _ hv]
    simp [isSetFor]
  · unfold entryDecodes
    rw [fsGetD_fsSet_ne _ _ hgen]
    exact h2 e he

lemma readAt_entry_append {s : KvStore}
    (h2 : ∀ e ∈ s.index, entryDecodes s.files e)
    (c : Command) {key : String} {cp : CommandPos}
    (hl : idxLookup s.index key = some cp) :
    readAt (fsGetD (fsSet s.files s.currentGen
        (fsGetD s.files s.currentGen ++ [c])) cp.gen) cp.pos cp.len
      = readAt (fsGetD s.files cp.gen) cp.pos cp.len := by
  by_cases hgen : cp.gen = s.currentGen
  · have hd := h2 _ (idxLookup_eq_some_mem hl)
    unfold entryDecodes at hd
    obtain ⟨v, hv⟩ := isSetFor_eq_some hd
    have hv' : readAt (fsGetD s.files cp.gen) cp.pos cp.len
        = some (Command.set key v) := hv
    rw [hgen] at hv'
    rw [hgen, fsGetD_fsSet_self, readAt_append_some _ hv', hv']
  · rw [fsGetD_fsSet_ne _ _ hgen]

lemma WF_setPre {s : KvStore} (hwf : WF s) (key value : String) :
    WF (s.setPre key value) := by
  have hreb := rebuild_active_append hwf (Command.set key value)
  have h2' := hwf.2.1
  obtain ⟨h1, h2, h3, h4, h5, h6, h7, h8, h9, h10, h11⟩ := hwf
  have hcur_k : s.currentGen ∈ fsKeys s.files := h6 _ h5
  unfold KvStore.setPre
  unfold WF
  dsimp only
  simp only [Nat.add_sub_cancel_left]
  refine ⟨?_, ?_, ?_, ?_, ?_, ?_, ?_, ?_, ?_, ?_, ?_⟩
  · exact hreb
  · intro e he
    rcases mem_idxInsert he with he' | he'
    · subst he'
      unfold entryDecodes
      dsimp only
      rw [fsGetD_fsSet_self, readAt_concat, if_pos rfl]
      simp [isSetFor]
    · exact entryDecodes_append_active h2 (Command.set key value) he'
  · intro e he
    rcases mem_idxInsert he with he' | he'
    · subst he'
      exact h5
    · exact h3 e he'
  · exact h4
  · exact h5
  · intro g hg
    rw [fsKeys_fsSet_mem _ _ hcur_k]
    exact h6 g hg
  · intro g hg
    rw [fsKeys_fsSet_mem _ _ hcur_k] at hg
    exact h7 g hg
  · rw [fsKeys_fsSet_mem _ _ hcur_k]
    exact h8
  · exact h9
  · exact idxSorted_insert _ _ _ h10
  · rw [genListKeys_fsSet_mem _ _ hcur_k]
    exact h11

lemma remove_eq_present {s : KvStore} {key : String} {old : CommandPos}
    (h : idxLookup s.index key = some old) :
    s.remove key = (Except.ok (), { s with
      files := fsSet s.files s.currentGen
        (fsGetD s.files s.currentGen ++ [Command.remove key])
      index := idxErase s.index key
      canbeCompacted := s.canbeCompacted + old.len }) := by
  unfold KvStore.remove
  rw [h]

lemma remove_eq_absent {s : KvStore} {key : String}
    (h : idxLookup s.index key = none) :
    s.remove key = (Except.error KvsError.keyNotFound, s) := by
  unfold KvStore.remove
  rw [h]

lemma WF_remove {s : KvStore} (hwf : WF s) (key : String) : WF (s.remove key).2 := by
  cases hl : idxLookup s.index key with
  | none =>
    rw [remove_eq_absent hl]
    exact hwf
  | some old =>
    rw [remove_eq_present hl]
    have hreb := rebuild_active_append hwf (Command.remove key)
    obtain ⟨h1, h2, h3, h4, h5, h6, h7, h8, h9, h10, h11⟩ := hwf
    have hcur_k : s.currentGen ∈ fsKeys s.files := h6 _ h5
    unfold WF
    dsimp only
    refine ⟨?_, ?_, ?_, ?_, ?_, ?_, ?_, ?_, ?_, ?_, ?_⟩
    · exact hreb
    · intro e he
      exact entryDecodes_append_active h2 (Command.remove key) (mem_idxErase he).1
    · intro e he
      exact h3 e (mem_idxErase he).1
    · exact h4
    · exact h5
    · intro g hg
      rw [fsKeys_fsSet_mem _ _ hcur_k]
      exact h6 g hg
    · intro g hg
      rw [fsKeys_fsSet_mem _ _ hcur_k] at hg
      exact h7 g hg
    · rw [fsKeys_fsSet_mem _ _ hcur_k]
      exact h8
    · exact h9
    · exact idxSorted_erase _ _ h10
    · rw [genListKeys_fsSet_mem _ _ hcur_k]
      exact h11

lemma WF_set {s : KvStore} (hwf : WF s) (key value : String) :
    WF (s.set key value) := by
  unfold KvStore.set
  dsimp only
  split
  · exact WF_compact (WF_setPre hwf key value)
  · exact WF_setPre hwf key value

/-! ### The value map and its evolution -/

lemma get_eq_valOf {s : KvStore} (hwf : WF s) (key : String) :
    s.get key = Except.ok (valOf s key) := by
  obtain ⟨h1, h2, h3, h4, h5, h6, h7, h8, h9, h10, h11⟩ := hwf
  unfold KvStore.get valOf
  cases hl : idxLookup s.index key with
  | none => rfl
  | some cp =>
    dsimp only
    have hmem := idxLookup_eq_some_mem hl
    have hr : cp.gen ∈ s.readers := h3 _ hmem
    rw [if_pos hr]
    have hd := h2 _ hmem
    unfold entryDecodes at hd
    obtain ⟨v, hv⟩ := isSetFor_eq_some hd
    have hv' : readAt (fsGetD s.files cp.gen) cp.pos cp.len
        = some (Command.set key v) := hv
    rw [hv']

lemma valOf_setPre_self {s : KvStore} (key value : String) :
    valOf (s.setPre key value) key = some value := by
  unfold KvStore.setPre valOf
  dsimp only
  rw [idxLookup_insert_self]
  dsimp only
  simp only [Nat.add_sub_cancel_left]
  rw [fsGetD_fsSet_self, readAt_concat, if_pos rfl]

lemma valOf_setPre_ne {s : KvStore} (hwf : WF s) {key key' : String} (value : String)
    (h : key' ≠ key) : valOf (s.setPre key value) key' = valOf s key' := by
  have h2 := hwf.2.1
  unfold KvStore.setPre valOf
  dsimp only
  rw [idxLookup_insert_ne _ _ h]
  cases hl : idxLookup s.index key' with
  | none => rfl
  | some cp =>
    dsimp only
    rw [readAt_entry_append h2 (Command.set key value) hl]

lemma valOf_set_self {s : KvStore} (hwf : WF s) (key value : String) :
    valOf (s.set key value) key = some value := by
  unfold KvStore.set
  dsimp only
  split
  · rw [valOf_compact (WF_setPre hwf key value)]
    exact valOf_setPre_self key value
  · exact valOf_setPre_self key value

lemma valOf_set_ne {s : KvStore} (hwf : WF s) {key key' : String} (value : String)
    (h : key' ≠ key) : valOf (s.set key value) key' = valOf s key' := by
  unfold KvStore.set
  dsimp only
  split
  · rw [valOf_compact (WF_setPre hwf key value)]
    exact valOf_setPre_ne hwf value h
  · exact valOf_setPre_ne hwf value h

lemma valOf_remove_self (s : KvStore) (key : String) :
    valOf (s.remove key).2 key = none := by
  cases hl : idxLookup s.index key with
  | none =>
    rw [remove_eq_absent hl]
    unfold valOf
    rw [hl]
  | some old =>
    rw [remove_eq_present hl]
    unfold valOf
    dsimp only
    rw [idxLookup_erase_self]

lemma valOf_remove_ne {s : KvStore} (hwf : WF s) {key key' : String}
    (h : key' ≠ key) : valOf (s.remove key).2 key' = valOf s key' := by
  have h2 := hwf.2.1
  cases hl : idxLookup s.index key with
  | none =>
    rw [remove_eq_absent hl]
  | some old =>
    rw [remove_eq_present hl]
    unfold valOf
    dsimp only
    rw [idxLookup_erase_ne _ h]
    cases hl' : idxLookup s.index key' with
    | none => rfl
    | some cp =>
      dsimp only
      rw [readAt_entry_append h2 (Command.remove key) hl']

lemma WF_applyOp {s : KvStore} (hwf : WF s) (op : Op) : WF (applyOp s op) := by
  cases op with
  | set k v => exact WF_set hwf k v
  | get k => exact hwf
  | remove k => exact WF_remove hwf k

lemma valOf_applyOp {s : KvStore} {m : RefMap} (hwf : WF s)
    (hcoup : ∀ k, valOf s k = refLookup m k) (op : Op) :
    ∀ k, valOf (applyOp s op) k = refLookup (refStep m op) k := by
  cases op with
  | set key value =>
    intro k
    show valOf (s.set key value) k = refLookup (refInsert m key value) k
    by_cases hk : k = key
    · subst hk
      rw [valOf_set_self hwf, refLookup_insert_self]
    · rw [valOf_set_ne hwf value hk, refLookup_insert_ne _ _ hk, hcoup]
  | get key => exact hcoup
  | remove key =>
    intro k
    show valOf (s.remove key).2 k = refLookup (refErase m key) k
    by_cases hk : k = key
    · subst hk
      rw [valOf_remove_self, refLookup_erase_self]
    · rw [valOf_remove_ne hwf hk, refLookup_erase_ne _ hk, hcoup]

lemma runOps_WF_coupling :
    ∀ (ops : List Op) (s : KvStore) (m : RefMap), WF s →
      (∀ k, valOf s k = refLookup m k) →
      WF (runOps s ops) ∧ ∀ k, valOf (runOps s ops) k = refLookup (refRun m ops) k := by
  intro ops
  induction ops with
  | nil =>
    intro s m hwf hc
    exact ⟨hwf, hc⟩
  | cons op rest ih =>
    intro s m hwf hc
    rw [show runOps s (op :: rest) = runOps (applyOp s op) rest from rfl,
      show refRun m (op :: rest) = refRun (refStep m op) rest from rfl]
    exact ih _ _ (WF_applyOp hwf op) (valOf_applyOp hwf hc op)

lemma WF_runOps :
    ∀ (ops : List Op) (s : KvStore), WF s → WF (runOps s ops) := by
  intro ops
  induction ops with
  | nil => intro s hwf; exact hwf
  | cons op rest ih =>
    intro s hwf
    exact ih _ (WF_applyOp hwf op)

/-! ### Well-formedness of a freshly opened store -/

lemma getLast?_eq_none {α : Type} : ∀ {l : List α}, l.getLast? = none → l = [] := by
  intro l
  cases l with
  | nil => intro _; rfl
  | cons a t =>
    intro h
    exfalso
    rw [List.getLast?_eq_getLast (a :: t) (by simp)] at h
    cases h

lemma WF_openStore {fs0 : Fs} (hnd : (fsKeys fs0).Nodup) : WF (openStore fs0) := by
  have hall_lt : ∀ g ∈ genListKeys fs0, g < (genListKeys fs0).getLast?.getD 0 + 1 := by
    intro g hg
    cases hl : (genListKeys fs0).getLast? with
    | none =>
      rw [getLast?_eq_none hl] at hg
      simp at hg
    | some m =>
      have := sorted_le_getLast (sorted_genListKeys fs0) hl g hg
      simp
      omega
  have hcur_nk : (genListKeys fs0).getLast?.getD 0 + 1 ∉ fsKeys fs0 := by
    intro hm
    have := hall_lt _ (mem_genListKeys.mpr hm)
    omega
  have hcur_ngl : (genListKeys fs0).getLast?.getD 0 + 1 ∉ genListKeys fs0 := by
    intro hm
    have := hall_lt _ hm
    omega
  have hget0 : fsGetD fs0 ((genListKeys fs0).getLast?.getD 0 + 1) = [] :=
    fsGetD_not_mem _ hcur_nk
  have hgetself : fsGetD (fsSet fs0 ((genListKeys fs0).getLast?.getD 0 + 1) [])
      ((genListKeys fs0).getLast?.getD 0 + 1) = [] := fsGetD_fsSet_self _ _ _
  have hgetne : ∀ {g : Nat}, g ≠ (genListKeys fs0).getLast?.getD 0 + 1 →
      fsGetD (fsSet fs0 ((genListKeys fs0).getLast?.getD 0 + 1) []) g = fsGetD fs0 g :=
    fun hne => fsGetD_fsSet_ne _ _ hne
  have hkeys2 : fsKeys (fsSet fs0 ((genListKeys fs0).getLast?.getD 0 + 1) [])
      = fsKeys fs0 ++ [(genListKeys fs0).getLast?.getD 0 + 1] := by
    rw [fsSet_not_mem _ _ hcur_nk, fsKeys_append]
    rfl
  have hgl2 : genListKeys (fsSet fs0 ((genListKeys fs0).getLast?.getD 0 + 1) [])
      = genListKeys fs0 ++ [(genListKeys fs0).getLast?.getD 0 + 1] := by
    show List.insertionSort (· ≤ ·)
        (fsKeys (fsSet fs0 ((genListKeys fs0).getLast?.getD 0 + 1) []))
      = genListKeys fs0 ++ [(genListKeys fs0).getLast?.getD 0 + 1]
    rw [hkeys2]
    exact insertionSort_concat_big (fun x hx => by
      have := hall_lt x (mem_genListKeys.mpr hx)
      omega)
  have hreaders : readersInsert (genListKeys fs0)
      ((genListKeys fs0).getLast?.getD 0 + 1)
      = genListKeys fs0 ++ [(genListKeys fs0).getLast?.getD 0 + 1] :=
    readersInsert_not_mem hcur_ngl
  have hmemP : ∀ e ∈ rebuildIndex fs0,
      entryDecodes fs0 e ∧ e.2.gen ∈ genListKeys fs0 := by
    intro e he
    rw [rebuildIndex_eq] at he
    refine replayIdx_mem fs0
      (fun e => entryDecodes fs0 e ∧ e.2.gen ∈ genListKeys fs0)
      (genListKeys fs0) ?_ []
      (fun e' he' => absurd he' (List.not_mem_nil e')) e he
    intro g hg k v pre suf hsplit
    constructor
    · unfold entryDecodes
      dsimp only
      rw [← hsplit, readAt_concat, if_pos rfl]
      simp [isSetFor]
    · exact hg
  unfold openStore
  unfold WF
  dsimp only
  rw [hget0]
  refine ⟨?_, ?_, ?_, ?_, ?_, ?_, ?_, ?_, ?_, ?_, ?_⟩
  · rw [rebuildIndex_eq, hgl2, replayIdx_append, replayIdx_cons, replayIdx_nil, hgetself]
    show replayIdx (fsSet fs0 ((genListKeys fs0).getLast?.getD 0 + 1) [])
      (genListKeys fs0) [] = rebuildIndex fs0
    rw [replayIdx_congr (fun g hg => hgetne (by
      intro he
      rw [he] at hg
      exact hcur_ngl hg)) []]
    exact (rebuildIndex_eq fs0).symm
  · intro e he
    obtain ⟨hd, hgen⟩ := hmemP e he
    unfold entryDecodes
    rw [hgetne (by
      intro he'
      rw [he'] at hgen
      exact hcur_ngl hgen)]
    exact hd
  · intro e he
    rw [hreaders]
    exact List.mem_append.mpr (Or.inl (hmemP e he).2)
  · intro g hg
    rw [hreaders] at hg
    rcases List.mem_append.mp hg with hg | hg
    · have := hall_lt g hg
      omega
    · rw [List.mem_singleton] at hg
      omega
  · rw [hreaders]
    exact List.mem_append.mpr (Or.inr (List.mem_singleton.mpr rfl))
  · intro g hg
    rw [hreaders] at hg
    rw [hkeys2]
    rcases List.mem_append.mp hg with hg | hg
    · exact List.mem_append.mpr (Or.inl (mem_genListKeys.mp hg))
    · exact List.mem_append.mpr (Or.inr hg)
  · intro g hg
    rw [hkeys2] at hg
    rw [hreaders]
    rcases List.mem_append.mp hg with hg | hg
    · exact List.mem_append.mpr (Or.inl (mem_genListKeys.mpr hg))
    · exact List.mem_append.mpr (Or.inr hg)
  · rw [hkeys2]
    rw [List.nodup_append]
    refine ⟨hnd, List.nodup_singleton _, ?_⟩
    intro a ha ha'
    rw [List.mem_singleton] at ha'
    rw [ha'] at ha
    exact hcur_nk ha
  · rw [hreaders]
    rw [List.nodup_append]
    refine ⟨nodup_genListKeys hnd, List.nodup_singleton _, ?_⟩
    intro a ha ha'
    rw [List.mem_singleton] at ha'
    rw [ha'] at ha
    exact hcur_ngl ha
  · rw [rebuildIndex_eq]
    exact replayIdx_sorted _ _ _ List.Pairwise.nil
  · rw [hgl2, List.getLast?_concat]

/-! ### Restart equivalence and further consequences -/

lemma mem_genList_lt (fs0 : Fs) :
    ∀ g ∈ genListKeys fs0, g < (genListKeys fs0).getLast?.getD 0 + 1 := by
  intro g hg
  cases hl : (genListKeys fs0).getLast? with
  | none =>
    rw [getLast?_eq_none hl] at hg
    simp at hg
  | some m =>
    have := sorted_le_getLast (sorted_genListKeys fs0) hl g hg
    simp
    omega

lemma reopen_get {s : KvStore} (hwf : WF s) (key : String) :
    (openStore s.files).get key = s.get key := by
  obtain ⟨h1, h2, h3, h4, h5, h6, h7, h8, h9, h10, h11⟩ := hwf
  unfold openStore KvStore.get
  dsimp only
  rw [h11]
  simp only [Option.getD_some]
  rw [h1]
  cases hl : idxLookup s.index key with
  | none => rfl
  | some cp =>
    dsimp only
    have hmem := idxLookup_eq_some_mem hl
    have hgen_r : cp.gen ∈ s.readers := h3 _ hmem
    have hgen_le : cp.gen ≤ s.currentGen := h4 _ hgen_r
    have hr2 : cp.gen ∈ readersInsert (genListKeys s.files) (s.currentGen + 1) := by
      rw [mem_readersInsert]
      exact Or.inl (mem_genListKeys.mpr (h6 _ hgen_r))
    rw [if_pos hr2, if_pos hgen_r]
    rw [fsGetD_fsSet_ne _ _ (by omega : cp.gen ≠ s.currentGen + 1)]

lemma get_no_panic {s : KvStore} (hwf : WF s) (key : String) :
    s.get key ≠ Except.error KvsError.panicMissingReader := by
  rw [get_eq_valOf hwf]
  intro h
  exact Except.noConfusion h

lemma mem_compactCopy_gen (fs : Fs) (cgen : Nat) :
    ∀ (entries : Index) (p : Nat) (e : String × CommandPos),
      e ∈ (compactCopy fs cgen entries p).2 → e.2.gen = cgen := by
  intro entries
  induction entries with
  | nil => intro p e he; simp [compactCopy] at he
  | cons ent rest ih =>
    intro p e he
    obtain ⟨k, cp⟩ := ent
    simp only [compactCopy] at he
    cases hr : readAt (fsGetD fs cp.gen) cp.pos cp.len with
    | some c =>
      rw [hr] at he
      dsimp only at he
      rcases List.mem_cons.mp he with he | he
      · subst he; rfl
      · exact ih _ e he
    | none =>
      rw [hr] at he
      dsimp only at he
      rcases List.mem_cons.mp he with he | he
      · subst he; rfl
      · exact ih _ e he

/-! ### The claims -/

/-- C1: for every finite sequence of set/get/remove operations run on a store
freshly opened on an empty directory, the result of `get k` after the
sequence equals, for every key `k`, the result of looking `k` up in a
reference finite map obtained by replaying the sequence — `set` inserts,
`remove` deletes, and `remove` of an absent key is an error that leaves the
map unchanged. -/
theorem claim_C1 (ops : List Op) (k : String) :
    (runOps (openStore []) ops).get k
      = Except.ok (refLookup (refRun [] ops) k) := by
  have h0 : WF (openStore []) := WF_openStore (by simp [fsKeys])
  have hc0 : ∀ k', valOf (openStore []) k' = refLookup [] k' := fun k' => rfl
  obtain ⟨hwf, hcoup⟩ := runOps_WF_coupling ops (openStore []) [] h0 hc0
  rw [get_eq_valOf hwf, hcoup k]

/-- C2: for every operation sequence executed from `open` on a directory,
dropping the store and reopening the same directory yields a store whose
`get` returns, for every key, exactly what the store returned before
closing (recovery replays the logs in ascending generation order, so later
writes supersede earlier ones). -/
theorem claim_C2 (fs0 : Fs) (ops : List Op) (hnd : (fsKeys fs0).Nodup)
    (k : String) :
    (openStore (runOps (openStore fs0) ops).files).get k
      = (runOps (openStore fs0) ops).get k :=
  reopen_get (WF_runOps ops _ (WF_openStore hnd)) k

theorem claim_C2_witness :
    (fsKeys ([] : Fs)).Nodup
    ∧ (openStore (runOps (openStore []) [Op.set "a" "1"]).files).get "a"
      = (runOps (openStore []) [Op.set "a" "1"]).get "a" :=
  ⟨by decide, claim_C2 [] [Op.set "a" "1"] (by decide) "a"⟩

/-- C3: the claim says `open` accumulates `compactable_bytes` from the
recovery scan; in the source `open` initialises `canbe_compacted = 0` and
discards the count `build_index_from_log` returns, so after opening a
directory whose log holds a superseded `Set` record the counter is `0`
while the scan reports `31` dead bytes. -/
theorem claim_C3 :
    (openStore [(1, [Command.set "a" "x", Command.set "a" "y"])]).canbeCompacted = 0
    ∧ scanBytes [(1, [Command.set "a" "x", Command.set "a" "y"])] = 31 := by
  constructor
  · rfl
  · decide

/-- C4: whenever a `set` makes `compactable_bytes` exceed the threshold of
1 048 576 bytes, compaction runs before `set` returns; afterwards the index
references only the compaction generation (old current generation + 1), the
new active generation is the old current generation + 2, every generation
strictly below the compaction generation is gone from the reader set and
from the directory, and the counter is reset to 0. -/
theorem claim_C4 (s : KvStore) (key value : String) (hwf : WF s)
    (htrig : (s.setPre key value).canbeCompacted > COMPACTION_THREDHOLD) :
    s.set key value = (s.setPre key value).compact
    ∧ (s.set key value).currentGen = s.currentGen + 2
    ∧ (∀ e ∈ (s.set key value).index, e.2.gen = s.currentGen + 1)
    ∧ (∀ g ∈ (s.set key value).readers, ¬ g < s.currentGen + 1)
    ∧ (∀ g ∈ fsKeys (s.set key value).files, ¬ g < s.currentGen + 1)
    ∧ (s.set key value).canbeCompacted = 0 := by
  have hset : s.set key value = (s.setPre key value).compact := by
    unfold KvStore.set
    dsimp only
    rw [if_pos htrig]
  have hwfPre : WF (s.setPre key value) := WF_setPre hwf key value
  have hce := compact_eq _ hwfPre
  refine ⟨hset, ?_, ?_, ?_, ?_, ?_⟩
  · rw [hset, hce]
    rfl
  · rw [hset, hce]
    dsimp only
    intro e he
    exact mem_reindex_gen _ _ _ e he
  · rw [hset, hce]
    dsimp only
    intro g hg
    rw [List.mem_cons, List.mem_singleton] at hg
    have : (s.setPre key value).currentGen = s.currentGen := rfl
    rw [this] at hg
    rcases hg with hg | hg <;> omega
  · rw [hset, hce]
    dsimp only
    intro g hg
    unfold fsKeys at hg
    simp at hg
    have : (s.setPre key value).currentGen = s.currentGen := rfl
    rw [this] at hg
    rcases hg with hg | hg <;> omega
  · rw [hset, hce]

theorem claim_C4_witness :
    WF { runOps (openStore []) [Op.set "a" "x"] with canbeCompacted := 2000000 }
    ∧ ({ runOps (openStore []) [Op.set "a" "x"] with
          canbeCompacted := 2000000 }.setPre "b" "y").canbeCompacted
        > COMPACTION_THREDHOLD
    ∧ ({ runOps (openStore []) [Op.set "a" "x"] with
          canbeCompacted := 2000000 }.set "b" "y").currentGen
        = { runOps (openStore []) [Op.set "a" "x"] with
          canbeCompacted := 2000000 }.currentGen + 2
    ∧ ({ runOps (openStore []) [Op.set "a" "x"] with
          canbeCompacted := 2000000 }.set "b" "y").canbeCompacted = 0 :=
  ⟨by decide, by decide,
    (claim_C4 _ "b" "y" (by decide) (by decide)).2.1,
    (claim_C4 _ "b" "y" (by decide) (by decide)).2.2.2.2.2⟩

/-- C5 (amended): for a key present in the index, a successful `remove`
appends a `Remove` record to the active file, deletes the key's index
entry, and increases `compactable_bytes` by exactly the deleted entry's
length — the `Remove` record's own length is not added (the source adds
only `old_cmd.len`). -/
theorem claim_C5 (s : KvStore) (key : String) (old : CommandPos)
    (h : idxLookup s.index key = some old) :
    (s.remove key).1 = Except.ok ()
    ∧ (s.remove key).2.index = idxErase s.index key
    ∧ fsGetD (s.remove key).2.files s.currentGen
        = fsGetD s.files s.currentGen ++ [Command.remove key]
    ∧ (s.remove key).2.canbeCompacted = s.canbeCompacted + old.len := by
  rw [remove_eq_present h]
  refine ⟨rfl, rfl, ?_, rfl⟩
  dsimp only
  exact fsGetD_fsSet_self _ _ _

/-- C5 counterexample: after `set "a" "x"` on a fresh store, removing `"a"`
increases the counter by 31 (the deleted `Set` entry's length) only — not
by 31 plus the 22-byte `Remove` record, as the claim states. -/
theorem claim_C5_counterexample :
    idxLookup (runOps (openStore []) [Op.set "a" "x"]).index "a"
      = some ⟨1, 0, 31⟩
    ∧ ¬ (((runOps (openStore []) [Op.set "a" "x"]).remove "a").2.canbeCompacted
        = (runOps (openStore []) [Op.set "a" "x"]).canbeCompacted
          + 31 + encLen (Command.remove "a")) := by
  constructor
  · decide
  · decide

theorem claim_C5_witness :
    idxLookup (runOps (openStore []) [Op.set "a" "x"]).index "a"
      = some ⟨1, 0, 31⟩
    ∧ ((runOps (openStore []) [Op.set "a" "x"]).remove "a").2.canbeCompacted
      = (runOps (openStore []) [Op.set "a" "x"]).canbeCompacted + (31 : Nat) :=
  ⟨by decide,
    (claim_C5 (runOps (openStore []) [Op.set "a" "x"]) "a" ⟨1, 0, 31⟩
      (by decide)).2.2.2⟩

/-- C6: `remove` on a key absent from the index fails with `KeyNotFound`
and mutates nothing — the whole store state is returned unchanged and no
record is written; consequently a second `remove k` right after a
successful `remove k` fails with `KeyNotFound` with state unchanged. -/
theorem claim_C6 (s : KvStore) (key : String) :
    (idxLookup s.index key = none →
      s.remove key = (Except.error KvsError.keyNotFound, s))
    ∧ (∀ old, idxLookup s.index key = some old →
        ((s.remove key).2).remove key
          = (Except.error KvsError.keyNotFound, (s.remove key).2)) := by
  constructor
  · intro h
    exact remove_eq_absent h
  · intro old h
    apply remove_eq_absent
    rw [remove_eq_present h]
    dsimp only
    exact idxLookup_erase_self _ _

theorem claim_C6_witness :
    (runOps (openStore []) [Op.set "a" "x"]).remove "z"
      = (Except.error KvsError.keyNotFound,
         runOps (openStore []) [Op.set "a" "x"])
    ∧ (((runOps (openStore []) [Op.set "a" "x"]).remove "a").2).remove "a"
      = (Except.error KvsError.keyNotFound,
         ((runOps (openStore []) [Op.set "a" "x"]).remove "a").2) :=
  ⟨(claim_C6 _ "z").1 (by decide),
   (claim_C6 _ "a").2 ⟨1, 0, 31⟩ (by decide)⟩

/-- C7: `get` returns success with `none` when the key is absent from the
index; when present it seeks to the indexed byte range and decodes it,
returning the value for a `Set` record and failing with
`UnexpectedCommandType` when the range decodes to anything else (such as a
`Remove` record). -/
theorem claim_C7 (s : KvStore) (key : String) :
    (idxLookup s.index key = none → s.get key = Except.ok none)
    ∧ (∀ cp, idxLookup s.index key = some cp → cp.gen ∈ s.readers →
        (∀ k' v, readAt (fsGetD s.files cp.gen) cp.pos cp.len
            = some (Command.set k' v) → s.get key = Except.ok (some v))
        ∧ (∀ k', readAt (fsGetD s.files cp.gen) cp.pos cp.len
            = some (Command.remove k') →
            s.get key = Except.error KvsError.unexpectedCommandType)) := by
  constructor
  · intro h
    unfold KvStore.get
    rw [h]
  · intro cp hl hr
    constructor
    · intro k' v hread
      unfold KvStore.get
      rw [hl]
      dsimp only
      rw [if_pos hr, hread]
    · intro k' hread
      unfold KvStore.get
      rw [hl]
      dsimp only
      rw [if_pos hr, hread]

theorem claim_C7_witness :
    (runOps (openStore []) [Op.set "a" "x"]).get "z" = Except.ok none
    ∧ (runOps (openStore []) [Op.set "a" "x"]).get "a" = Except.ok (some "x")
    ∧ (KvStore.mk 1 [1] [("a", ⟨1, 31, 22⟩)] 0
        [(1, [Command.set "a" "x", Command.remove "a"])]).get "a"
      = Except.error KvsError.unexpectedCommandType :=
  ⟨(claim_C7 _ "z").1 (by decide),
   ((claim_C7 (runOps (openStore []) [Op.set "a" "x"]) "a").2
      ⟨1, 0, 31⟩ (by decide) (by decide)).1 "a" "x" (by decide),
   ((claim_C7 (KvStore.mk 1 [1] [("a", ⟨1, 31, 22⟩)] 0
        [(1, [Command.set "a" "x", Command.remove "a"])]) "a").2
      ⟨1, 31, 22⟩ (by decide) (by decide)).2 "a" (by decide)⟩

/-- C8: in every state reachable by open/set/get/remove (with compaction),
the active generation number strictly exceeds every other generation
tracked in the reader set and on disk; `open` picks the successor of the
largest existing generation (1 on an empty directory), and compaction
advances the current generation by 2. -/
theorem claim_C8 (fs0 : Fs) (ops : List Op) (hnd : (fsKeys fs0).Nodup) :
    (∀ g ∈ (runOps (openStore fs0) ops).readers,
        g ≠ (runOps (openStore fs0) ops).currentGen →
        g < (runOps (openStore fs0) ops).currentGen)
    ∧ (∀ g ∈ fsKeys (runOps (openStore fs0) ops).files,
        g ≠ (runOps (openStore fs0) ops).currentGen →
        g < (runOps (openStore fs0) ops).currentGen)
    ∧ (fsKeys fs0 = [] → (openStore fs0).currentGen = 1)
    ∧ (∀ g ∈ fsKeys fs0, g < (openStore fs0).currentGen)
    ∧ (fsKeys fs0 ≠ [] → ∃ g ∈ fsKeys fs0, (openStore fs0).currentGen = g + 1)
    ∧ (∀ t : KvStore, t.compact.currentGen = t.currentGen + 2)
    ∧ (∀ t : KvStore, ∀ e ∈ t.compact.index, e.2.gen = t.currentGen + 1) := by
  have hwf := WF_runOps ops _ (WF_openStore hnd)
  obtain ⟨h1, h2, h3, h4, h5, h6, h7, h8, h9, h10, h11⟩ := hwf
  refine ⟨?_, ?_, ?_, ?_, ?_, ?_, ?_⟩
  · intro g hg hne
    have := h4 g hg
    omega
  · intro g hg hne
    have := h4 g (h7 g hg)
    omega
  · intro hempty
    show (genListKeys fs0).getLast?.getD 0 + 1 = 1
    rw [show genListKeys fs0 = [] from by
      unfold genListKeys
      rw [hempty]
      rfl]
    rfl
  · intro g hg
    exact mem_genList_lt fs0 g (mem_genListKeys.mpr hg)
  · intro hne
    have hglne : genListKeys fs0 ≠ [] := by
      intro hempty
      apply hne
      have hperm := List.perm_insertionSort (· ≤ ·) (fsKeys fs0)
      rw [show List.insertionSort (· ≤ ·) (fsKeys fs0) = genListKeys fs0 from rfl,
        hempty] at hperm
      exact hperm.symm.eq_nil
    refine ⟨(genListKeys fs0).getLast hglne,
      mem_genListKeys.mp (List.getLast_mem hglne), ?_⟩
    show (genListKeys fs0).getLast?.getD 0 + 1 = _
    rw [List.getLast?_eq_getLast (genListKeys fs0) hglne]
    rfl
  · intro t
    rfl
  · intro t e he
    exact mem_compactCopy_gen _ _ t.index 0 e he

theorem claim_C8_witness :
    (fsKeys [(3, ([] : LogFile))]).Nodup
    ∧ (∀ g ∈ (runOps (openStore [(3, [])]) []).readers,
        g ≠ (runOps (openStore [(3, [])]) []).currentGen →
        g < (runOps (openStore [(3, [])]) []).currentGen) :=
  ⟨by decide, (claim_C8 [(3, [])] [] (by decide)).1⟩

/-- C9: in every reachable store state, every index entry's generation has
an open reader in the readers map, so the reader lookups inside `get` and
`compact` (written with `expect`) can never fail — in particular `get`
never produces the panic marker. -/
theorem claim_C9 (fs0 : Fs) (ops : List Op) (hnd : (fsKeys fs0).Nodup) :
    (∀ e ∈ (runOps (openStore fs0) ops).index,
        e.2.gen ∈ (runOps (openStore fs0) ops).readers)
    ∧ ∀ k, (runOps (openStore fs0) ops).get k
        ≠ Except.error KvsError.panicMissingReader := by
  have hwf := WF_runOps ops _ (WF_openStore hnd)
  exact ⟨hwf.2.2.1, fun k => get_no_panic hwf k⟩

theorem claim_C9_witness :
    (fsKeys ([] : Fs)).Nodup
    ∧ (∀ e ∈ (runOps (openStore []) [Op.set "a" "x"]).index,
        e.2.gen ∈ (runOps (openStore []) [Op.set "a" "x"]).readers) :=
  ⟨by decide, (claim_C9 [] [Op.set "a" "x"] (by decide)).1⟩

/-- C10: the operations never validate that a key is non-empty: on any
well-formed store, `set "" v` succeeds, a subsequent `get ""` returns the
value, and `remove ""` succeeds, exactly as for any other key, although
the specification's data model restricts keys to non-empty strings. -/
theorem claim_C10 (s : KvStore) (v : String) (hwf : WF s) :
    (s.set "" v).get "" = Except.ok (some v)
    ∧ ((s.set "" v).remove "").1 = Except.ok () := by
  have hwf' := WF_set hwf "" v
  have hval : valOf (s.set "" v) "" = some v := valOf_set_self hwf "" v
  constructor
  · rw [get_eq_valOf hwf', hval]
  · cases hl : idxLookup (s.set "" v).index "" with
    | none =>
      unfold valOf at hval
      rw [hl] at hval
      cases hval
    | some old =>
      rw [remove_eq_present hl]

theorem claim_C10_witness :
    WF (openStore [])
    ∧ ((openStore []).set "" "x").get "" = Except.ok (some "x")
    ∧ (((openStore []).set "" "x").remove "").1 = Except.ok () :=
  ⟨by decide,
   (claim_C10 (openStore []) "x" (by decide)).1,
   (claim_C10 (openStore []) "x" (by decide)).2⟩
